import Mathlib

/-!
Verification of the Gomoku AI engine (`ai_system.py`, class `GomokuAI`).

The Python engine works on a mutable 15x15 grid of ints (0 = empty, 1 = black,
2 = white).  We embed the grid as a total function `ℤ → ℤ → ℤ`; every function
of the source that mutates the grid is embedded in state-passing style,
returning the final grid together with its result, so that the make/undo
discipline of the source is visible in the embedding.  Scores, which in the
source are floats ranging over the integers together with `±math.inf`, are
embedded as `WithBot (WithTop ℤ)`.
-/

namespace Gomoku

/-- The grid: a total assignment of cell values to integer coordinates.
The engine only ever reads coordinates in `[0, 15) × [0, 15)`. -/
abbrev Board := ℤ → ℤ → ℤ

/-- `board[r][c] = v` of the source: pointwise functional update. -/
def setCell (b : Board) (r c v : ℤ) : Board :=
  fun r' c' => if r' = r ∧ c' = c then v else b r' c'

/-- `self.board_size` (fixed to 15 in `GomokuAI.__init__`). -/
def boardSize : ℤ := 15

/-- Python `range(lo, hi)` over integers, as a list. -/
def intRange (lo hi : ℤ) : List ℤ :=
  (List.range (hi - lo).toNat).map (fun k : ℕ => lo + (k : ℤ))

/-- All positions `(i, j)` with `0 ≤ i, j < 15`, in row-major order
(the iteration order of the source's nested `for i / for j` loops). -/
def allPositions : List (ℤ × ℤ) :=
  (intRange 0 15).flatMap (fun i => (intRange 0 15).map (fun j => (i, j)))

/-- The four scan directions of the source: `[(0,1),(1,0),(1,1),(1,-1)]`. -/
def directions : List (ℤ × ℤ) := [(0, 1), (1, 0), (1, 1), (1, -1)]

/-- The loop condition of the source's directional walks:
`0 <= r < self.board_size and 0 <= c < self.board_size and board[r][c] == player`. -/
def cellGood (b : Board) (p r c : ℤ) : Prop :=
  0 ≤ r ∧ r < 15 ∧ 0 ≤ c ∧ c < 15 ∧ b r c = p

instance cellGood.instDecidable (b : Board) (p r c : ℤ) :
    Decidable (cellGood b p r c) :=
  inferInstanceAs (Decidable (_ ∧ _))

/-- One directional walk of `_count_consecutive` / `_check_five_in_row`:
starting at `(r, c)`, count while `cellGood`, stepping by `(dr, dc)`.  The
walk visits at most 15 in-bounds cells (the coordinates move strictly
monotonically), so fuel 15 realizes the source's `while` loop exactly. -/
def countStep (b : Board) (p dr dc : ℤ) : ℕ → ℤ → ℤ → ℕ
  | 0, _, _ => 0
  | fuel + 1, r, c =>
    if cellGood b p r c then
      countStep b p dr dc fuel (r + dr) (c + dc) + 1
    else 0

/-- `GomokuAI._count_consecutive`: `count = 1`, then walk forwards from
`(row+dr, col+dc)` and backwards from `(row-dr, col-dc)`. -/
def countConsecutive (b : Board) (row col dr dc p : ℤ) : ℕ :=
  1 + countStep b p dr dc 15 (row + dr) (col + dc)
    + countStep b p (-dr) (-dc) 15 (row - dr) (col - dc)

/-- `GomokuAI._check_five_in_row`: for each of the four directions the source
inlines exactly the counting loop of `_count_consecutive` and returns `True`
as soon as `count >= 5`. -/
def checkFiveInRow (b : Board) (row col p : ℤ) : Bool :=
  directions.any (fun d => decide (5 ≤ countConsecutive b row col d.1 d.2 p))

/-- `GomokuAI._is_game_over`: scan all cells; any occupied cell completing a
five-in-row ends the game. -/
def isGameOver (b : Board) : Bool :=
  allPositions.any (fun m =>
    decide (b m.1 m.2 ≠ 0) && checkFiveInRow b m.1 m.2 (b m.1 m.2))

/-- `GomokuAI._evaluate_direction`: map the consecutive count to the pattern
score (`five = 100000`, `live_four = 10000`, `live_three = 1000`,
`live_two = 100`, else `0`). -/
def evaluateDirection (b : Board) (row col dr dc p : ℤ) : ℤ :=
  let count := countConsecutive b row col dr dc p
  if 5 ≤ count then 100000
  else if count = 4 then 10000
  else if count = 3 then 1000
  else if count = 2 then 100
  else 0

/-- `GomokuAI._evaluate_position`: sum of the directional scores over the four
directions. -/
def evaluatePosition (b : Board) (row col p : ℤ) : ℤ :=
  directions.foldl (fun s d => s + evaluateDirection b row col d.1 d.2 p) 0

/-- `GomokuAI._evaluate_board`: for every cell add the position value of the
player's stones and subtract the position value of the opponent's stones,
where `opponent = 3 - player`. -/
def evaluateBoard (b : Board) (p : ℤ) : ℤ :=
  allPositions.foldl (fun s m =>
    if b m.1 m.2 = p then s + evaluatePosition b m.1 m.2 p
    else if b m.1 m.2 = 3 - p then s - evaluatePosition b m.1 m.2 (3 - p)
    else s) 0

/-- `GomokuAI._get_empty_positions`: all empty cells in row-major order. -/
def getEmptyPositions (b : Board) : List (ℤ × ℤ) :=
  allPositions.filter (fun m => decide (b m.1 m.2 = 0))

/-- `GomokuAI._has_neighbors`: some cell other than `pos` in the 5x5 box around
`pos` (clipped to the board) is non-empty. -/
def hasNeighbors (b : Board) (pos : ℤ × ℤ) : Bool :=
  (intRange (max 0 (pos.1 - 2)) (min 15 (pos.1 + 3))).any fun i =>
    (intRange (max 0 (pos.2 - 2)) (min 15 (pos.2 + 3))).any fun j =>
      decide ((i ≠ pos.1 ∨ j ≠ pos.2) ∧ b i j ≠ 0)

/-- `GomokuAI._get_candidate_moves`: the empty cells having neighbors; if there
are none but empty cells exist, the empty cells within Chebyshev distance 2 of
the center `15 // 2 = 7`; and as the final `candidates or empty_positions`
fallback, all empty cells. -/
def getCandidateMoves (b : Board) : List (ℤ × ℤ) :=
  let emptyPositions := getEmptyPositions b
  let candidates := emptyPositions.filter (fun pos => hasNeighbors b pos)
  let candidates :=
    if candidates = [] ∧ emptyPositions ≠ [] then
      emptyPositions.filter (fun pos =>
        decide ((pos.1 - 7).natAbs ≤ 2 ∧ (pos.2 - 7).natAbs ≤ 2))
    else candidates
  if candidates = [] then emptyPositions else candidates

/-- Search scores.  The source computes float scores that range over the
integers together with `-math.inf` and `math.inf`; we embed them as the
integers with a bottom and a top element adjoined. -/
abbrev Score := WithBot (WithTop ℤ)

/-- A finite score. -/
def Score.ofInt (z : ℤ) : Score := ((z : WithTop ℤ) : WithBot (WithTop ℤ))

/-- The loop of the maximizing branch of `GomokuAI._minimax`: place the
mover's stone, recurse (the recursive call is abstracted as `f`, receiving the
current `alpha`/`beta`), undo the placement, update `max_eval` and `alpha`, and
break out of the loop as soon as `beta <= alpha`. -/
def maxLoop (f : Board → Score → Score → Score × Board) (stone : ℤ) :
    Board → Score → Score → List (ℤ × ℤ) → Score → Score × Board
  | b, _, _, [], maxEval => (maxEval, b)
  | b, alpha, beta, m :: rest, maxEval =>
    let b1 := setCell b m.1 m.2 stone
    let res := f b1 alpha beta
    let b3 := setCell res.2 m.1 m.2 0
    let maxEval' := max maxEval res.1
    let alpha' := max alpha res.1
    if beta ≤ alpha' then (maxEval', b3)
    else maxLoop f stone b3 alpha' beta rest maxEval'

/-- The loop of the minimizing branch of `GomokuAI._minimax`: place the
opponent's stone, recurse, undo, update `min_eval` and `beta`, and break as
soon as `beta <= alpha`. -/
def minLoop (f : Board → Score → Score → Score × Board) (stone : ℤ) :
    Board → Score → Score → List (ℤ × ℤ) → Score → Score × Board
  | b, _, _, [], minEval => (minEval, b)
  | b, alpha, beta, m :: rest, minEval =>
    let b1 := setCell b m.1 m.2 stone
    let res := f b1 alpha beta
    let b3 := setCell res.2 m.1 m.2 0
    let minEval' := min minEval res.1
    let beta' := min beta res.1
    if beta' ≤ alpha then (minEval', b3)
    else minLoop f stone b3 alpha beta' rest minEval'

/-- `GomokuAI._minimax`, in state-passing style (score, final grid).  Terminal
nodes (`depth == 0 or _is_game_over`) return `_evaluate_board(board, player)`;
a maximizing node iterates the candidate moves placing `player`'s stone with
running maximum `-inf`; a minimizing node places the opponent's
(`3 - player`) stone with running minimum `inf`. -/
def minimax : ℕ → Board → Bool → ℤ → Score → Score → Score × Board
  | 0, b, _, player, _, _ => (Score.ofInt (evaluateBoard b player), b)
  | depth + 1, b, isMaximizing, player, alpha, beta =>
    if isGameOver b then (Score.ofInt (evaluateBoard b player), b)
    else if isMaximizing then
      maxLoop (fun b' a bt => minimax depth b' false player a bt) player
        b alpha beta (getCandidateMoves b) ⊥
    else
      minLoop (fun b' a bt => minimax depth b' true player a bt) (3 - player)
        b alpha beta (getCandidateMoves b) ⊤

/-- The loop shared by `_find_winning_move` and `_find_defensive_move`: scan
positions in row-major order; at each empty cell place `player`'s stone, test
`_check_five_in_row`, restore the cell to 0, and return the cell on success. -/
def findWinLoop (player : ℤ) : Board → List (ℤ × ℤ) → Option (ℤ × ℤ) × Board
  | b, [] => (none, b)
  | b, m :: rest =>
    if b m.1 m.2 = 0 then
      let b1 := setCell b m.1 m.2 player
      if checkFiveInRow b1 m.1 m.2 player then (some m, setCell b1 m.1 m.2 0)
      else findWinLoop player (setCell b1 m.1 m.2 0) rest
    else findWinLoop player b rest

/-- `GomokuAI._find_winning_move`. -/
def findWinningMove (b : Board) (player : ℤ) : Option (ℤ × ℤ) × Board :=
  findWinLoop player b allPositions

/-- `GomokuAI._find_defensive_move`: textually the same scan as
`_find_winning_move`, run for the opponent `3 - current_player`. -/
def findDefensiveMove (b : Board) (currentPlayer : ℤ) : Option (ℤ × ℤ) × Board :=
  findWinLoop (3 - currentPlayer) b allPositions

/-- `GomokuAI._evaluate_move_threat`: place the stone, sum the coarse threat
weights (`>=4 → 1000`, `=3 → 100`, `=2 → 10`) over the four directions, then
set the cell back to 0. -/
def evaluateMoveThreat (b : Board) (move : ℤ × ℤ) (player : ℤ) : ℤ × Board :=
  let b1 := setCell b move.1 move.2 player
  let threatScore := directions.foldl (fun s d =>
    let count := countConsecutive b1 move.1 move.2 d.1 d.2 player
    if 4 ≤ count then s + 1000
    else if count = 3 then s + 100
    else if count = 2 then s + 10
    else s) 0
  (threatScore, setCell b1 move.1 move.2 0)

/-- The scoring pass of `GomokuAI._get_priority_moves`: build the
`(score, move)` list, threading the grid through `_evaluate_move_threat`. -/
def scoreMovesLoop (player : ℤ) : Board → List (ℤ × ℤ) → List (ℤ × (ℤ × ℤ)) × Board
  | b, [] => ([], b)
  | b, m :: rest =>
    let res := evaluateMoveThreat b m player
    let tail := scoreMovesLoop player res.2 rest
    ((res.1, m) :: tail.1, tail.2)

/-- `GomokuAI._get_priority_moves`: score the candidate moves by threat, sort
by score in descending order (Python's `sort` is stable), keep the first 10. -/
def getPriorityMoves (b : Board) (player : ℤ) : List (ℤ × ℤ) × Board :=
  let candidates := getCandidateMoves b
  let scored := scoreMovesLoop player b candidates
  let sorted := scored.1.mergeSort (fun x y => decide (y.1 ≤ x.1))
  ((sorted.take 10).map (fun x => x.2), scored.2)

/-- The root-selection loop of `_intermediate_move` / `_advance_move`: place
the candidate for `current_player`, run the search (abstracted as `f`), undo,
and keep the candidate iff `score > best_score`. -/
def rootLoop (f : Board → Score × Board) (player : ℤ) :
    Board → List (ℤ × ℤ) → Score → Option (ℤ × ℤ) → Option (ℤ × ℤ) × Board
  | b, [], _, best => (best, b)
  | b, m :: rest, bestScore, best =>
    let b1 := setCell b m.1 m.2 player
    let res := f b1
    let b3 := setCell res.2 m.1 m.2 0
    if bestScore < res.1 then rootLoop f player b3 rest res.1 (some m)
    else rootLoop f player b3 rest bestScore best

/-- `GomokuAI._intermediate_move`: depth-2 search over the candidate moves
starting from `best_score = -inf`; the final `best_move or candidate_moves[0]`
is embedded with `List.head?`, whose `none` on an exhausted board stands for
the source's out-of-range `candidate_moves[0]` (`IndexError`). -/
def intermediateMove (b : Board) (currentPlayer : ℤ) : Option (ℤ × ℤ) × Board :=
  let candidateMoves := getCandidateMoves b
  let res := rootLoop (fun b' => minimax 2 b' false currentPlayer ⊥ ⊤)
    currentPlayer b candidateMoves ⊥ none
  (match res.1 with
   | some m => some m
   | none => candidateMoves.head?, res.2)

/-- `GomokuAI._advance_move`: as `_intermediate_move` with depth 4. -/
def advanceMove (b : Board) (currentPlayer : ℤ) : Option (ℤ × ℤ) × Board :=
  let candidateMoves := getCandidateMoves b
  let res := rootLoop (fun b' => minimax 4 b' false currentPlayer ⊥ ⊤)
    currentPlayer b candidateMoves ⊥ none
  (match res.1 with
   | some m => some m
   | none => candidateMoves.head?, res.2)

/-- The squared euclidean distance to the board center `15 // 2 = 7`, the
quantity under the square root in `GomokuAI._position_weight`. -/
def positionWeightSq (row col : ℤ) : ℕ := ((row - 7) ^ 2 + (col - 7) ^ 2).toNat

/-- Decide `k + sqrt d2 > sqrt d1` over the reals by integer arithmetic
(squaring; all quantities under comparison are kept exact). -/
def sqrtCmpGt (k : ℤ) (d1 d2 : ℕ) : Bool :=
  if 0 ≤ k then
    let r : ℤ := (d1 : ℤ) - k ^ 2 - (d2 : ℤ)
    if r < 0 then true else decide (4 * k ^ 2 * (d2 : ℤ) > r ^ 2)
  else
    let l : ℤ := (d2 : ℤ) - (d1 : ℤ) - k ^ 2
    if l ≤ 0 then false else decide (l ^ 2 > 4 * k ^ 2 * (d1 : ℤ))

/-- An expert root score `score + position_weight(row, col)` is kept exact as
the pair of the search score and the squared center distance, denoting the
real number `score + (7 - sqrt d) * 10`. -/
abbrev EScore := Score × ℕ

/-- Exact comparison `e1 > e2` of two expert root scores, i.e. of
`s1 + (7 - sqrt d1) * 10 > s2 + (7 - sqrt d2) * 10` over the extended reals
(finite cases reduce to `(s1 - s2) + sqrt (100 d2) > sqrt (100 d1)`). -/
def escoreGt (e1 e2 : EScore) : Bool :=
  if e1.1 = ⊥ then false
  else if e1.1 = ⊤ then decide (e2.1 ≠ ⊤)
  else if e2.1 = ⊥ then true
  else if e2.1 = ⊤ then false
  else
    sqrtCmpGt ((e1.1.unbot' 0).untop' 0 - (e2.1.unbot' 0).untop' 0)
      (100 * e1.2) (100 * e2.2)

/-- The root-selection loop of `_enhanced_minimax_move`: depth-6 search plus
the `_position_weight` bonus, compared exactly via `escoreGt`. -/
def enhancedRootLoop (player : ℤ) :
    Board → List (ℤ × ℤ) → EScore → Option (ℤ × ℤ) → Option (ℤ × ℤ) × Board
  | b, [], _, best => (best, b)
  | b, m :: rest, bestScore, best =>
    let b1 := setCell b m.1 m.2 player
    let res := minimax 6 b1 false player ⊥ ⊤
    let score : EScore := (res.1, positionWeightSq m.1 m.2)
    let b3 := setCell res.2 m.1 m.2 0
    if escoreGt score bestScore then enhancedRootLoop player b3 rest score (some m)
    else enhancedRootLoop player b3 rest bestScore best

/-- `GomokuAI._enhanced_minimax_move`: depth-6 root search over the priority
moves, with the position-weight bonus; `best_move or candidate_moves[0]` is
again embedded with `List.head?`. -/
def enhancedMinimaxMove (b : Board) (currentPlayer : ℤ) : Option (ℤ × ℤ) × Board :=
  let candidateMoves := getPriorityMoves b currentPlayer
  let res := enhancedRootLoop currentPlayer candidateMoves.2 candidateMoves.1 (⊥, 0) none
  (match res.1 with
   | some m => some m
   | none => candidateMoves.1.head?, res.2)

/-- `GomokuAI._expert_move`: return an immediate winning move if one exists,
else an immediate blocking move (a winning move of the opponent `3 - player`),
else fall through to the enhanced depth-6 search. -/
def expertMove (b : Board) (currentPlayer : ℤ) : Option (ℤ × ℤ) × Board :=
  let winning := findWinningMove b currentPlayer
  match winning.1 with
  | some m => (some m, winning.2)
  | none =>
    let defensive := findWinningMove winning.2 (3 - currentPlayer)
    match defensive.1 with
    | some m => (some m, defensive.2)
    | none => enhancedMinimaxMove defensive.2 currentPlayer

/-- `GomokuAI._beginner_move`.  The call to `random.random() < 0.3` is embedded
as the boolean `coin`, and `random.choice(empty_positions)` as indexing by
`idx % length` (any index is reachable; `none` on an empty list stands for the
`IndexError` that `random.choice` raises there). -/
def beginnerMove (b : Board) (currentPlayer : ℤ) (coin : Bool) (idx : ℕ) :
    Option (ℤ × ℤ) × Board :=
  let emptyPositions := getEmptyPositions b
  if coin then
    let defensive := findDefensiveMove b currentPlayer
    match defensive.1 with
    | some m => (some m, defensive.2)
    | none => (emptyPositions[idx % emptyPositions.length]?, defensive.2)
  else (emptyPositions[idx % emptyPositions.length]?, b)

/-- `AIDifficulty`. -/
inductive AIDifficulty where
  | beginner
  | intermediate
  | advance
  | expert
deriving DecidableEq

/-- `GomokuAI.get_move`: dispatch on the difficulty tier.  `coin` and `idx`
stand for the randomness consumed by the Beginner tier (the other tiers ignore
them). -/
def getMove (difficulty : AIDifficulty) (b : Board) (currentPlayer : ℤ)
    (coin : Bool) (idx : ℕ) : Option (ℤ × ℤ) × Board :=
  match difficulty with
  | .beginner => beginnerMove b currentPlayer coin idx
  | .intermediate => intermediateMove b currentPlayer
  | .advance => advanceMove b currentPlayer
  | .expert => expertMove b currentPlayer

/-! ### Basic facts about the board and the iteration ranges -/

theorem setCell_eval (b : Board) (r c v r' c' : ℤ) :
    setCell b r c v r' c' = if r' = r ∧ c' = c then v else b r' c' := rfl

theorem setCell_self (b : Board) (r c v : ℤ) : setCell b r c v r c = v := by
  simp [setCell]

theorem setCell_of_ne (b : Board) (r c v r' c' : ℤ) (h : ¬(r' = r ∧ c' = c)) :
    setCell b r c v r' c' = b r' c' := by
  simp only [setCell, if_neg h]

theorem setCell_setCell (b : Board) (r c v w : ℤ) :
    setCell (setCell b r c v) r c w = setCell b r c w := by
  funext r' c'
  by_cases h : r' = r ∧ c' = c <;> simp [setCell, h]

theorem setCell_eq_self (b : Board) (r c w : ℤ) (h : b r c = w) :
    setCell b r c w = b := by
  funext r' c'
  by_cases hrc : r' = r ∧ c' = c
  · rw [hrc.1, hrc.2, setCell_self, h]
  · exact setCell_of_ne b r c w r' c' hrc

theorem undo_setCell (b : Board) (r c v : ℤ) (h : b r c = 0) :
    setCell (setCell b r c v) r c 0 = b := by
  rw [setCell_setCell, setCell_eq_self b r c 0 h]

theorem mem_intRange {x lo hi : ℤ} : x ∈ intRange lo hi ↔ lo ≤ x ∧ x < hi := by
  simp only [intRange, List.mem_map, List.mem_range]
  constructor
  · rintro ⟨k, hk, rfl⟩
    omega
  · rintro ⟨h1, h2⟩
    exact ⟨(x - lo).toNat, by omega, by omega⟩

theorem mem_allPositions {m : ℤ × ℤ} :
    m ∈ allPositions ↔ 0 ≤ m.1 ∧ m.1 < 15 ∧ 0 ≤ m.2 ∧ m.2 < 15 := by
  rcases m with ⟨i, j⟩
  simp only [allPositions, List.mem_flatMap, List.mem_map, mem_intRange]
  constructor
  · rintro ⟨i', hi', j', hj', h⟩
    obtain ⟨rfl, rfl⟩ : i' = i ∧ j' = j := by
      exact ⟨congrArg Prod.fst h, congrArg Prod.snd h⟩
    exact ⟨hi'.1, hi'.2, hj'.1, hj'.2⟩
  · rintro ⟨h1, h2, h3, h4⟩
    exact ⟨i, ⟨h1, h2⟩, j, ⟨h3, h4⟩, rfl⟩

theorem mem_getEmptyPositions {b : Board} {m : ℤ × ℤ} :
    m ∈ getEmptyPositions b ↔
      (0 ≤ m.1 ∧ m.1 < 15 ∧ 0 ≤ m.2 ∧ m.2 < 15) ∧ b m.1 m.2 = 0 := by
  simp [getEmptyPositions, List.mem_filter, mem_allPositions]

theorem getCandidateMoves_subset {b : Board} {m : ℤ × ℤ}
    (h : m ∈ getCandidateMoves b) : m ∈ getEmptyPositions b := by
  simp only [getCandidateMoves] at h
  by_cases h1 : (getEmptyPositions b).filter (fun pos => hasNeighbors b pos) = [] ∧
      getEmptyPositions b ≠ []
  · rw [if_pos h1] at h
    split at h
    · exact h
    · exact List.mem_of_mem_filter h
  · rw [if_neg h1] at h
    split at h
    · exact h
    · exact List.mem_of_mem_filter h

theorem getCandidateMoves_empty {b : Board} {m : ℤ × ℤ}
    (h : m ∈ getCandidateMoves b) : b m.1 m.2 = 0 :=
  (mem_getEmptyPositions.1 (getCandidateMoves_subset h)).2

theorem getCandidateMoves_ne_nil {b : Board} (h : getEmptyPositions b ≠ []) :
    getCandidateMoves b ≠ [] := by
  simp only [getCandidateMoves]
  by_cases h1 : (getEmptyPositions b).filter (fun pos => hasNeighbors b pos) = [] ∧
      getEmptyPositions b ≠ []
  · rw [if_pos h1]
    split
    · exact h
    · assumption
  · rw [if_neg h1]
    split
    · exact h
    · assumption

theorem getCandidateMoves_of_empty_nil {b : Board} (h : getEmptyPositions b = []) :
    getCandidateMoves b = [] := by
  simp [getCandidateMoves, h]

/-! ### Restoration: every mutating function hands the grid back unchanged -/

theorem maxLoop_snd (f : Board → Score → Score → Score × Board) (stone : ℤ)
    (hf : ∀ b a bt, (f b a bt).2 = b) (b : Board) (beta : Score) :
    ∀ (moves : List (ℤ × ℤ)) (alpha acc : Score),
      (∀ m ∈ moves, b m.1 m.2 = 0) →
      (maxLoop f stone b alpha beta moves acc).2 = b := by
  intro moves
  induction moves with
  | nil => intro alpha acc _; rfl
  | cons m rest ih =>
    intro alpha acc h
    have hb3 : setCell (f (setCell b m.1 m.2 stone) alpha beta).2 m.1 m.2 0 = b := by
      rw [hf, undo_setCell _ _ _ _ (h m (List.mem_cons_self m rest))]
    simp only [maxLoop, hb3]
    split
    · rfl
    · exact ih _ _ (fun m' hm' => h m' (List.mem_cons_of_mem m hm'))

theorem minLoop_snd (f : Board → Score → Score → Score × Board) (stone : ℤ)
    (hf : ∀ b a bt, (f b a bt).2 = b) (b : Board) (alpha : Score) :
    ∀ (moves : List (ℤ × ℤ)) (beta acc : Score),
      (∀ m ∈ moves, b m.1 m.2 = 0) →
      (minLoop f stone b alpha beta moves acc).2 = b := by
  intro moves
  induction moves with
  | nil => intro beta acc _; rfl
  | cons m rest ih =>
    intro beta acc h
    have hb3 : setCell (f (setCell b m.1 m.2 stone) alpha beta).2 m.1 m.2 0 = b := by
      rw [hf, undo_setCell _ _ _ _ (h m (List.mem_cons_self m rest))]
    simp only [minLoop, hb3]
    split
    · rfl
    · exact ih _ _ (fun m' hm' => h m' (List.mem_cons_of_mem m hm'))

theorem minimax_snd :
    ∀ (depth : ℕ) (b : Board) (isMaximizing : Bool) (player : ℤ) (alpha beta : Score),
      (minimax depth b isMaximizing player alpha beta).2 = b
  | 0, b, _, player, _, _ => rfl
  | depth + 1, b, isMaximizing, player, alpha, beta => by
    simp only [minimax]
    split
    · rfl
    · split
      · exact maxLoop_snd _ _ (fun b' a bt => minimax_snd depth b' false player a bt)
          b beta _ alpha _ (fun m hm => getCandidateMoves_empty hm)
      · exact minLoop_snd _ _ (fun b' a bt => minimax_snd depth b' true player a bt)
          b alpha _ beta _ (fun m hm => getCandidateMoves_empty hm)

theorem findWinLoop_snd (player : ℤ) :
    ∀ (l : List (ℤ × ℤ)) (b : Board), (findWinLoop player b l).2 = b
  | [], _ => rfl
  | m :: rest, b => by
    simp only [findWinLoop]
    split
    · next hempty =>
      split
      · simp only [undo_setCell b m.1 m.2 player hempty]
      · rw [undo_setCell b m.1 m.2 player hempty]
        exact findWinLoop_snd player rest b
    · exact findWinLoop_snd player rest b

theorem findWinningMove_snd (b : Board) (player : ℤ) :
    (findWinningMove b player).2 = b :=
  findWinLoop_snd player allPositions b

theorem findDefensiveMove_snd (b : Board) (currentPlayer : ℤ) :
    (findDefensiveMove b currentPlayer).2 = b :=
  findWinLoop_snd (3 - currentPlayer) allPositions b

theorem evaluateMoveThreat_snd (b : Board) (move : ℤ × ℤ) (player : ℤ)
    (h : b move.1 move.2 = 0) : (evaluateMoveThreat b move player).2 = b := by
  simp only [evaluateMoveThreat]
  exact undo_setCell b move.1 move.2 player h

theorem scoreMovesLoop_snd (player : ℤ) :
    ∀ (l : List (ℤ × ℤ)) (b : Board),
      (∀ m ∈ l, b m.1 m.2 = 0) → (scoreMovesLoop player b l).2 = b
  | [], _, _ => rfl
  | m :: rest, b, h => by
    simp only [scoreMovesLoop]
    rw [evaluateMoveThreat_snd b m player (h m (List.mem_cons_self m rest))]
    exact scoreMovesLoop_snd player rest b
      (fun m' hm' => h m' (List.mem_cons_of_mem m hm'))

theorem getPriorityMoves_snd (b : Board) (player : ℤ) :
    (getPriorityMoves b player).2 = b := by
  simp only [getPriorityMoves]
  exact scoreMovesLoop_snd player _ b (fun m hm => getCandidateMoves_empty hm)

theorem rootLoop_snd (f : Board → Score × Board) (player : ℤ)
    (hf : ∀ b, (f b).2 = b) (b : Board) :
    ∀ (moves : List (ℤ × ℤ)) (bestScore : Score) (best : Option (ℤ × ℤ)),
      (∀ m ∈ moves, b m.1 m.2 = 0) →
      (rootLoop f player b moves bestScore best).2 = b := by
  intro moves
  induction moves with
  | nil => intro s best _; rfl
  | cons m rest ih =>
    intro s best h
    have hb3 : setCell (f (setCell b m.1 m.2 player)).2 m.1 m.2 0 = b := by
      rw [hf, undo_setCell _ _ _ _ (h m (List.mem_cons_self m rest))]
    simp only [rootLoop, hb3]
    split
    · exact ih _ _ (fun m' hm' => h m' (List.mem_cons_of_mem m hm'))
    · exact ih _ _ (fun m' hm' => h m' (List.mem_cons_of_mem m hm'))

theorem enhancedRootLoop_snd (player : ℤ) (b : Board) :
    ∀ (moves : List (ℤ × ℤ)) (bestScore : EScore) (best : Option (ℤ × ℤ)),
      (∀ m ∈ moves, b m.1 m.2 = 0) →
      (enhancedRootLoop player b moves bestScore best).2 = b := by
  intro moves
  induction moves with
  | nil => intro s best _; rfl
  | cons m rest ih =>
    intro s best h
    have hb3 : setCell (minimax 6 (setCell b m.1 m.2 player) false player ⊥ ⊤).2
        m.1 m.2 0 = b := by
      rw [minimax_snd, undo_setCell _ _ _ _ (h m (List.mem_cons_self m rest))]
    simp only [enhancedRootLoop, hb3]
    split
    · exact ih _ _ (fun m' hm' => h m' (List.mem_cons_of_mem m hm'))
    · exact ih _ _ (fun m' hm' => h m' (List.mem_cons_of_mem m hm'))

theorem intermediateMove_snd (b : Board) (p : ℤ) : (intermediateMove b p).2 = b := by
  simp only [intermediateMove]
  exact rootLoop_snd _ p (fun b' => minimax_snd 2 b' false p ⊥ ⊤) b _ _ _
    (fun m hm => getCandidateMoves_empty hm)

theorem advanceMove_snd (b : Board) (p : ℤ) : (advanceMove b p).2 = b := by
  simp only [advanceMove]
  exact rootLoop_snd _ p (fun b' => minimax_snd 4 b' false p ⊥ ⊤) b _ _ _
    (fun m hm => getCandidateMoves_empty hm)

theorem enhancedMinimaxMove_snd (b : Board) (p : ℤ) :
    (enhancedMinimaxMove b p).2 = b := by
  simp only [enhancedMinimaxMove]
  rw [getPriorityMoves_snd]
  have hmem : ∀ m ∈ (getPriorityMoves b p).1, b m.1 m.2 = 0 := by
    intro m hm
    simp only [getPriorityMoves, List.mem_map] at hm
    obtain ⟨x, hx, rfl⟩ := hm
    have hx' := List.mem_mergeSort.1 (List.mem_of_mem_take hx)
    have : x ∈ (scoreMovesLoop p b (getCandidateMoves b)).1 := hx'
    have hsc : ∀ (l : List (ℤ × ℤ)) (b' : Board) (x : ℤ × (ℤ × ℤ)),
        x ∈ (scoreMovesLoop p b' l).1 → x.2 ∈ l := by
      intro l
      induction l with
      | nil => intro b' x hx; simp [scoreMovesLoop] at hx
      | cons a t ih =>
        intro b' x hx
        simp only [scoreMovesLoop, List.mem_cons] at hx
        rcases hx with h | h
        · rw [h]; exact List.mem_cons_self a t
        · exact List.mem_cons_of_mem a (ih _ _ h)
    exact getCandidateMoves_empty (hsc _ _ _ this)
  exact enhancedRootLoop_snd p b _ _ _ hmem

theorem expertMove_snd (b : Board) (p : ℤ) : (expertMove b p).2 = b := by
  simp only [expertMove, findWinningMove_snd]
  split
  · rfl
  · split
    · rfl
    · exact enhancedMinimaxMove_snd b p

theorem beginnerMove_snd (b : Board) (p : ℤ) (coin : Bool) (idx : ℕ) :
    (beginnerMove b p coin idx).2 = b := by
  simp only [beginnerMove]
  split
  · split
    · exact findDefensiveMove_snd b p
    · exact findDefensiveMove_snd b p
  · rfl

theorem getMove_snd (difficulty : AIDifficulty) (b : Board) (p : ℤ)
    (coin : Bool) (idx : ℕ) : (getMove difficulty b p coin idx).2 = b := by
  cases difficulty with
  | beginner => exact beginnerMove_snd b p coin idx
  | intermediate => exact intermediateMove_snd b p
  | advance => exact advanceMove_snd b p
  | expert => exact expertMove_snd b p

/-- C1: For every grid, depth, maximizing flag, root player and alpha/beta
bounds, the recursive search `GomokuAI._minimax` returns with the grid exactly
as it was on entry (every hypothetical placement, including on paths that
prune early via `beta <= alpha`, is undone), and consequently a `getMove` call
of any tier hands the caller's grid back unchanged. -/
theorem minimax_restores_grid :
    (∀ (depth : ℕ) (b : Board) (isMaximizing : Bool) (player : ℤ)
        (alpha beta : Score),
      (minimax depth b isMaximizing player alpha beta).2 = b) ∧
    (∀ (difficulty : AIDifficulty) (b : Board) (player : ℤ) (coin : Bool) (idx : ℕ),
      (getMove difficulty b player coin idx).2 = b) :=
  ⟨minimax_snd, getMove_snd⟩

/-- C8: For the Intermediate, Advance and Expert tiers, `getMove` is a
deterministic function of grid and player: the randomness parameters (which
only the Beginner tier consumes) do not influence the result. -/
theorem getMove_deterministic (difficulty : AIDifficulty)
    (h : difficulty ≠ AIDifficulty.beginner) (b : Board) (player : ℤ)
    (coin1 : Bool) (idx1 : ℕ) (coin2 : Bool) (idx2 : ℕ) :
    getMove difficulty b player coin1 idx1 = getMove difficulty b player coin2 idx2 := by
  cases difficulty with
  | beginner => exact absurd rfl h
  | intermediate => rfl
  | advance => rfl
  | expert => rfl

/-! ### The exhaustive reference search and the alpha-beta equivalence -/

/-- The exhaustive, unpruned minimax described by the specification: same
terminal test and terminal evaluation `boardValue`, same candidate generator,
same placement discipline, but folding max/min over all children without any
alpha/beta window. -/
def minimaxFull : ℕ → Board → Bool → ℤ → Score
  | 0, b, _, player => Score.ofInt (evaluateBoard b player)
  | depth + 1, b, isMaximizing, player =>
    if isGameOver b then Score.ofInt (evaluateBoard b player)
    else if isMaximizing then
      (getCandidateMoves b).foldl
        (fun a m => max a (minimaxFull depth (setCell b m.1 m.2 player) false player)) ⊥
    else
      (getCandidateMoves b).foldl
        (fun a m => min a (minimaxFull depth (setCell b m.1 m.2 (3 - player)) true player)) ⊤

theorem foldl_max_init_le {α β : Type} [LinearOrder α] (f : β → α) :
    ∀ (l : List β) (a : α), a ≤ l.foldl (fun x y => max x (f y)) a
  | [], a => le_refl a
  | m :: t, a => (le_max_left a (f m)).trans (foldl_max_init_le f t _)

theorem foldl_max_mono {α β : Type} [LinearOrder α] (f : β → α) :
    ∀ (l : List β) {a b : α}, a ≤ b →
      l.foldl (fun x y => max x (f y)) a ≤ l.foldl (fun x y => max x (f y)) b
  | [], _, _, h => h
  | m :: t, _, _, h => foldl_max_mono f t (max_le_max h (le_refl (f m)))

theorem foldl_max_split {α β : Type} [LinearOrder α] (f : β → α) :
    ∀ (l : List β) (a c : α),
      l.foldl (fun x y => max x (f y)) (max a c)
        = max c (l.foldl (fun x y => max x (f y)) a)
  | [], a, c => max_comm a c
  | m :: t, a, c => by
    show t.foldl _ (max (max a c) (f m)) = max c (t.foldl _ (max a (f m)))
    rw [sup_right_comm a c (f m)]
    exact foldl_max_split f t (max a (f m)) c

theorem foldl_min_le_init {α β : Type} [LinearOrder α] (f : β → α) :
    ∀ (l : List β) (a : α), l.foldl (fun x y => min x (f y)) a ≤ a
  | [], a => le_refl a
  | m :: t, a => (foldl_min_le_init f t _).trans (min_le_left a (f m))

theorem foldl_min_mono {α β : Type} [LinearOrder α] (f : β → α) :
    ∀ (l : List β) {a b : α}, a ≤ b →
      l.foldl (fun x y => min x (f y)) a ≤ l.foldl (fun x y => min x (f y)) b
  | [], _, _, h => h
  | m :: t, _, _, h => foldl_min_mono f t (min_le_min h (le_refl (f m)))

theorem foldl_min_split {α β : Type} [LinearOrder α] (f : β → α) :
    ∀ (l : List β) (a c : α),
      l.foldl (fun x y => min x (f y)) (min a c)
        = min c (l.foldl (fun x y => min x (f y)) a)
  | [], a, c => min_comm a c
  | m :: t, a, c => by
    show t.foldl _ (min (min a c) (f m)) = min c (t.foldl _ (min a (f m)))
    rw [inf_right_comm a c (f m)]
    exact foldl_min_split f t (min a (f m)) c

theorem maxLoop_fst_ge (f : Board → Score → Score → Score × Board) (stone : ℤ)
    (beta : Score) :
    ∀ (moves : List (ℤ × ℤ)) (b : Board) (alpha acc : Score),
      acc ≤ (maxLoop f stone b alpha beta moves acc).1
  | [], _, _, acc => le_refl acc
  | m :: rest, b, alpha, acc => by
    simp only [maxLoop]
    split
    · exact le_max_left acc _
    · exact (le_max_left acc _).trans (maxLoop_fst_ge f stone beta rest _ _ _)

theorem minLoop_fst_le (f : Board → Score → Score → Score × Board) (stone : ℤ)
    (alpha : Score) :
    ∀ (moves : List (ℤ × ℤ)) (b : Board) (beta acc : Score),
      (minLoop f stone b alpha beta moves acc).1 ≤ acc
  | [], _, _, acc => le_refl acc
  | m :: rest, b, beta, acc => by
    simp only [minLoop]
    split
    · exact min_le_left acc _
    · exact (minLoop_fst_le f stone alpha rest _ _ _).trans (min_le_left acc _)

/-- Fail-soft invariant of the maximizing loop: relative to the exhaustive
value (the max-fold of the children's reference values over the accumulator),
the pruned result fails low only by overestimating, fails high only by
underestimating, and is exact inside the window. -/
theorem maxLoop_triple
    (f : Board → Score → Score → Score × Board) (stone : ℤ)
    (childVal : Board → Score) (beta : Score)
    (hsnd : ∀ b a bt, (f b a bt).2 = b)
    (hf : ∀ b' alpha, alpha < beta →
      ((f b' alpha beta).1 ≤ alpha → childVal b' ≤ (f b' alpha beta).1) ∧
      (beta ≤ (f b' alpha beta).1 → (f b' alpha beta).1 ≤ childVal b') ∧
      (alpha < (f b' alpha beta).1 → (f b' alpha beta).1 < beta →
        (f b' alpha beta).1 = childVal b')) (b : Board) :
    ∀ (moves : List (ℤ × ℤ)) (alpha acc : Score), alpha < beta →
      (∀ m ∈ moves, b m.1 m.2 = 0) →
      ((maxLoop f stone b alpha beta moves acc).1 ≤ alpha →
        moves.foldl (fun a m => max a (childVal (setCell b m.1 m.2 stone))) acc
          ≤ (maxLoop f stone b alpha beta moves acc).1) ∧
      (beta ≤ (maxLoop f stone b alpha beta moves acc).1 →
        (maxLoop f stone b alpha beta moves acc).1
          ≤ moves.foldl (fun a m => max a (childVal (setCell b m.1 m.2 stone))) acc) ∧
      (alpha < (maxLoop f stone b alpha beta moves acc).1 →
        (maxLoop f stone b alpha beta moves acc).1 < beta →
        (maxLoop f stone b alpha beta moves acc).1
          = moves.foldl (fun a m => max a (childVal (setCell b m.1 m.2 stone))) acc) := by
  intro moves
  induction moves with
  | nil =>
    intro alpha acc _ _
    exact ⟨fun _ => le_refl _, fun _ => le_refl _, fun _ _ => rfl⟩
  | cons m rest ih =>
    intro alpha acc hab hemp
    have hb3 : setCell (f (setCell b m.1 m.2 stone) alpha beta).2 m.1 m.2 0 = b := by
      rw [hsnd, undo_setCell _ _ _ _ (hemp m (List.mem_cons_self m rest))]
    have hrest : ∀ m' ∈ rest, b m'.1 m'.2 = 0 :=
      fun m' hm' => hemp m' (List.mem_cons_of_mem m hm')
    have CH := hf (setCell b m.1 m.2 stone) alpha hab
    set ev := (f (setCell b m.1 m.2 stone) alpha beta).1 with hev_def
    set w := childVal (setCell b m.1 m.2 stone) with hw_def
    have hstep : maxLoop f stone b alpha beta (m :: rest) acc
        = if beta ≤ max alpha ev then (max acc ev, b)
          else maxLoop f stone b (max alpha ev) beta rest (max acc ev) := by
      simp only [maxLoop, hb3, hev_def]
    have hfold : (m :: rest).foldl
          (fun a m' => max a (childVal (setCell b m'.1 m'.2 stone))) acc
        = rest.foldl (fun a m' => max a (childVal (setCell b m'.1 m'.2 stone)))
            (max acc w) := rfl
    rw [hstep, hfold]
    by_cases hprune : beta ≤ max alpha ev
    · rw [if_pos hprune]
      have hbev : beta ≤ ev := by
        rcases le_max_iff.1 hprune with h | h
        · exact absurd h (not_le.2 hab)
        · exact h
      have hevw : ev ≤ w := CH.2.1 hbev
      have hinit : max acc w
          ≤ rest.foldl (fun a m' => max a (childVal (setCell b m'.1 m'.2 stone)))
              (max acc w) := foldl_max_init_le _ rest _
      refine ⟨?_, ?_, ?_⟩
      · intro h
        exact absurd ((le_max_right acc ev).trans h) (not_le.2 (hab.trans_le hbev))
      · intro _
        exact max_le ((le_max_left acc w).trans hinit)
          (hevw.trans ((le_max_right acc w).trans hinit))
      · intro _ h2
        exact absurd (hbev.trans (le_max_right acc ev)) (not_le.2 h2)
    · rw [if_neg hprune]
      have halpha' : max alpha ev < beta := not_le.1 hprune
      have IH := ih (max alpha ev) (max acc ev) halpha' hrest
      have ABge : max acc ev
          ≤ (maxLoop f stone b (max alpha ev) beta rest (max acc ev)).1 :=
        maxLoop_fst_ge f stone beta rest b _ _
      have hev_lt : ev < beta := (le_max_right alpha ev).trans_lt halpha'
      have hVsplit : rest.foldl
            (fun a m' => max a (childVal (setCell b m'.1 m'.2 stone))) (max acc ev)
          ≤ max ev (rest.foldl
              (fun a m' => max a (childVal (setCell b m'.1 m'.2 stone))) (max acc w)) := by
        calc rest.foldl (fun a m' => max a (childVal (setCell b m'.1 m'.2 stone)))
              (max acc ev)
            ≤ rest.foldl (fun a m' => max a (childVal (setCell b m'.1 m'.2 stone)))
              (max (max acc w) ev) :=
              foldl_max_mono _ rest (max_le_max (le_max_left acc w) (le_refl ev))
          _ = max ev (rest.foldl
              (fun a m' => max a (childVal (setCell b m'.1 m'.2 stone))) (max acc w)) :=
              foldl_max_split _ rest (max acc w) ev
      refine ⟨?_, ?_, ?_⟩
      · intro h
        have hV'le := IH.1 (h.trans (le_max_left alpha ev))
        have heva : ev ≤ alpha := ((le_max_right acc ev).trans ABge).trans h
        have hwev : w ≤ ev := CH.1 heva
        exact (foldl_max_mono _ rest (max_le_max (le_refl acc) hwev)).trans hV'le
      · intro h
        have hABV' := IH.2.1 h
        rcases le_max_iff.1 (hABV'.trans hVsplit) with h' | h'
        · exact absurd (h.trans h') (not_le.2 hev_lt)
        · exact h'
      · intro h1 h2
        rcases le_or_lt (maxLoop f stone b (max alpha ev) beta rest (max acc ev)).1
            (max alpha ev) with hc | hc
        · have hABev : (maxLoop f stone b (max alpha ev) beta rest (max acc ev)).1
              ≤ ev := by
            rcases le_max_iff.1 hc with h' | h'
            · exact absurd h' (not_le.2 h1)
            · exact h'
          have hevAB : ev ≤ (maxLoop f stone b (max alpha ev) beta rest
              (max acc ev)).1 := (le_max_right acc ev).trans ABge
          have hABev' : (maxLoop f stone b (max alpha ev) beta rest (max acc ev)).1
              = ev := le_antisymm hABev hevAB
          have hew : ev = w := CH.2.2 (h1.trans_le hABev) hev_lt
          have hV'le := IH.1 hc
          refine le_antisymm ?_ ?_
          · rw [hABev', hew]
            exact (le_max_right acc w).trans (foldl_max_init_le _ rest _)
          · have : rest.foldl
                (fun a m' => max a (childVal (setCell b m'.1 m'.2 stone))) (max acc w)
                = rest.foldl
                (fun a m' => max a (childVal (setCell b m'.1 m'.2 stone)))
                  (max acc ev) := by rw [hew]
            rw [this]
            exact hV'le
        · have hABV' := IH.2.2 hc h2
          rcases le_or_lt ev alpha with hev | hev
          · have hwev : w ≤ ev := CH.1 hev
            have hVleV' := foldl_max_mono
              (fun m' : ℤ × ℤ => childVal (setCell b m'.1 m'.2 stone)) rest
              (max_le_max (le_refl acc) hwev)
            have hABle := hABV'.le.trans hVsplit
            have hevAB : ev < (maxLoop f stone b (max alpha ev) beta rest
                (max acc ev)).1 := hev.trans_lt h1
            have hABleV : (maxLoop f stone b (max alpha ev) beta rest (max acc ev)).1
                ≤ rest.foldl
                  (fun a m' => max a (childVal (setCell b m'.1 m'.2 stone)))
                  (max acc w) := by
              rcases le_max_iff.1 hABle with h' | h'
              · exact absurd h' (not_le.2 hevAB)
              · exact h'
            exact le_antisymm hABleV (hVleV'.trans hABV'.ge)
          · have hew : ev = w := CH.2.2 hev hev_lt
            rw [hABV']
            rw [show max acc ev = max acc w by rw [hew]]

/-- Fail-soft invariant of the minimizing loop, dual to `maxLoop_triple`. -/
theorem minLoop_triple
    (f : Board → Score → Score → Score × Board) (stone : ℤ)
    (childVal : Board → Score) (alpha : Score)
    (hsnd : ∀ b a bt, (f b a bt).2 = b)
    (hf : ∀ b' beta0, alpha < beta0 →
      ((f b' alpha beta0).1 ≤ alpha → childVal b' ≤ (f b' alpha beta0).1) ∧
      (beta0 ≤ (f b' alpha beta0).1 → (f b' alpha beta0).1 ≤ childVal b') ∧
      (alpha < (f b' alpha beta0).1 → (f b' alpha beta0).1 < beta0 →
        (f b' alpha beta0).1 = childVal b')) (b : Board) :
    ∀ (moves : List (ℤ × ℤ)) (beta acc : Score), alpha < beta →
      (∀ m ∈ moves, b m.1 m.2 = 0) →
      ((minLoop f stone b alpha beta moves acc).1 ≤ alpha →
        moves.foldl (fun a m => min a (childVal (setCell b m.1 m.2 stone))) acc
          ≤ (minLoop f stone b alpha beta moves acc).1) ∧
      (beta ≤ (minLoop f stone b alpha beta moves acc).1 →
        (minLoop f stone b alpha beta moves acc).1
          ≤ moves.foldl (fun a m => min a (childVal (setCell b m.1 m.2 stone))) acc) ∧
      (alpha < (minLoop f stone b alpha beta moves acc).1 →
        (minLoop f stone b alpha beta moves acc).1 < beta →
        (minLoop f stone b alpha beta moves acc).1
          = moves.foldl (fun a m => min a (childVal (setCell b m.1 m.2 stone))) acc) := by
  intro moves
  induction moves with
  | nil =>
    intro beta acc _ _
    exact ⟨fun _ => le_refl _, fun _ => le_refl _, fun _ _ => rfl⟩
  | cons m rest ih =>
    intro beta acc hab hemp
    have hb3 : setCell (f (setCell b m.1 m.2 stone) alpha beta).2 m.1 m.2 0 = b := by
      rw [hsnd, undo_setCell _ _ _ _ (hemp m (List.mem_cons_self m rest))]
    have hrest : ∀ m' ∈ rest, b m'.1 m'.2 = 0 :=
      fun m' hm' => hemp m' (List.mem_cons_of_mem m hm')
    have CH := hf (setCell b m.1 m.2 stone) beta hab
    set ev := (f (setCell b m.1 m.2 stone) alpha beta).1 with hev_def
    set w := childVal (setCell b m.1 m.2 stone) with hw_def
    have hstep : minLoop f stone b alpha beta (m :: rest) acc
        = if min beta ev ≤ alpha then (min acc ev, b)
          else minLoop f stone b alpha (min beta ev) rest (min acc ev) := by
      simp only [minLoop, hb3, hev_def]
    have hfold : (m :: rest).foldl
          (fun a m' => min a (childVal (setCell b m'.1 m'.2 stone))) acc
        = rest.foldl (fun a m' => min a (childVal (setCell b m'.1 m'.2 stone)))
            (min acc w) := rfl
    rw [hstep, hfold]
    by_cases hprune : min beta ev ≤ alpha
    · rw [if_pos hprune]
      have heva : ev ≤ alpha := by
        rcases min_le_iff.1 hprune with h | h
        · exact absurd h (not_le.2 hab)
        · exact h
      have hwev : w ≤ ev := CH.1 heva
      have hinit : rest.foldl
            (fun a m' => min a (childVal (setCell b m'.1 m'.2 stone))) (min acc w)
          ≤ min acc w := foldl_min_le_init _ rest _
      refine ⟨?_, ?_, ?_⟩
      · intro _
        exact le_min (hinit.trans (min_le_left acc w))
          ((hinit.trans (min_le_right acc w)).trans hwev)
      · intro h
        exact absurd ((h.trans (min_le_right acc ev)).trans heva) (not_le.2 hab)
      · intro h1 _
        exact absurd ((min_le_right acc ev).trans heva) (not_le.2 h1)
    · rw [if_neg hprune]
      have hbeta' : alpha < min beta ev := not_le.1 hprune
      have IH := ih (min beta ev) (min acc ev) hbeta' hrest
      have ABle : (minLoop f stone b alpha (min beta ev) rest (min acc ev)).1
          ≤ min acc ev := minLoop_fst_le f stone alpha rest b _ _
      have haev : alpha < ev := hbeta'.trans_le (min_le_right beta ev)
      have hVsplit : min ev (rest.foldl
            (fun a m' => min a (childVal (setCell b m'.1 m'.2 stone))) (min acc w))
          ≤ rest.foldl
            (fun a m' => min a (childVal (setCell b m'.1 m'.2 stone))) (min acc ev) := by
        calc min ev (rest.foldl
              (fun a m' => min a (childVal (setCell b m'.1 m'.2 stone))) (min acc w))
            = rest.foldl (fun a m' => min a (childVal (setCell b m'.1 m'.2 stone)))
              (min (min acc w) ev) := (foldl_min_split _ rest (min acc w) ev).symm
          _ ≤ rest.foldl (fun a m' => min a (childVal (setCell b m'.1 m'.2 stone)))
              (min acc ev) :=
              foldl_min_mono _ rest (min_le_min (min_le_left acc w) (le_refl ev))
      refine ⟨?_, ?_, ?_⟩
      · intro h
        have hV'le := IH.1 h
        rcases lt_or_le ev beta with hevb | hevb
        · have hew : ev = w := CH.2.2 haev hevb
          have : rest.foldl
              (fun a m' => min a (childVal (setCell b m'.1 m'.2 stone))) (min acc w)
              = rest.foldl
              (fun a m' => min a (childVal (setCell b m'.1 m'.2 stone))) (min acc ev) := by
            rw [hew]
          rw [this]
          exact hV'le
        · rcases le_or_lt (rest.foldl
              (fun a m' => min a (childVal (setCell b m'.1 m'.2 stone))) (min acc w)) ev
            with h' | h'
          · exact (min_eq_right h' ▸ hVsplit).trans hV'le
          · have : ev ≤ (minLoop f stone b alpha (min beta ev) rest (min acc ev)).1 :=
              (min_eq_left h'.le ▸ hVsplit).trans hV'le
            exact absurd (this.trans h) (not_le.2 haev)
      · intro h
        have hABV' := IH.2.1 ((min_le_left beta ev).trans h)
        have hbev : beta ≤ ev := h.trans (ABle.trans (min_le_right acc ev))
        have hevw : ev ≤ w := CH.2.1 hbev
        exact hABV'.trans (foldl_min_mono _ rest (min_le_min (le_refl acc) hevw))
      · intro h1 h2
        rcases le_or_lt (min beta ev)
            (minLoop f stone b alpha (min beta ev) rest (min acc ev)).1 with hc | hc
        · have hevAB : ev ≤ (minLoop f stone b alpha (min beta ev) rest
              (min acc ev)).1 := by
            rcases min_le_iff.1 hc with h' | h'
            · exact absurd h' (not_le.2 h2)
            · exact h'
          have hABev : (minLoop f stone b alpha (min beta ev) rest (min acc ev)).1
              ≤ ev := ABle.trans (min_le_right acc ev)
          have hABev' : (minLoop f stone b alpha (min beta ev) rest (min acc ev)).1
              = ev := le_antisymm hABev hevAB
          have hew : ev = w := CH.2.2 haev (hABev' ▸ h2)
          have hABV' := IH.2.1 hc
          refine le_antisymm ?_ ?_
          · have : rest.foldl
                (fun a m' => min a (childVal (setCell b m'.1 m'.2 stone))) (min acc ev)
                = rest.foldl
                (fun a m' => min a (childVal (setCell b m'.1 m'.2 stone)))
                  (min acc w) := by rw [hew]
            exact this ▸ hABV'
          · rw [hABev', hew]
            exact (foldl_min_le_init _ rest _).trans (min_le_right acc w)
        · have hABV' := IH.2.2 h1 hc
          rcases lt_or_le ev beta with hevb | hevb
          · have hew : ev = w := CH.2.2 haev hevb
            rw [hABV']
            rw [show min acc ev = min acc w by rw [hew]]
          · have hevw : ev ≤ w := CH.2.1 hevb
            have hV'leV := foldl_min_mono
              (fun m' : ℤ × ℤ => childVal (setCell b m'.1 m'.2 stone)) rest
              (min_le_min (le_refl acc) hevw)
            rcases le_or_lt (rest.foldl
                (fun a m' => min a (childVal (setCell b m'.1 m'.2 stone))) (min acc w))
                ev with h' | h'
            · refine le_antisymm (hABV'.le.trans hV'leV) ?_
              exact (min_eq_right h' ▸ hVsplit).trans hABV'.ge
            · have : ev ≤ (minLoop f stone b alpha (min beta ev) rest (min acc ev)).1 :=
                (min_eq_left h'.le ▸ hVsplit).trans hABV'.ge
              exact absurd (hc.trans_le ((min_le_right beta ev).trans this)) (lt_irrefl _)

/-- Knuth-Moore fail-soft property of the alpha-beta search relative to the
exhaustive minimax, for any window `alpha < beta`. -/
theorem minimax_triple :
    ∀ (depth : ℕ) (b : Board) (isMaximizing : Bool) (player : ℤ)
      (alpha beta : Score), alpha < beta →
      (((minimax depth b isMaximizing player alpha beta).1 ≤ alpha →
         minimaxFull depth b isMaximizing player
           ≤ (minimax depth b isMaximizing player alpha beta).1) ∧
       (beta ≤ (minimax depth b isMaximizing player alpha beta).1 →
         (minimax depth b isMaximizing player alpha beta).1
           ≤ minimaxFull depth b isMaximizing player) ∧
       (alpha < (minimax depth b isMaximizing player alpha beta).1 →
         (minimax depth b isMaximizing player alpha beta).1 < beta →
         (minimax depth b isMaximizing player alpha beta).1
           = minimaxFull depth b isMaximizing player))
  | 0, b, isMaximizing, player, alpha, beta, _ =>
    ⟨fun _ => le_refl _, fun _ => le_refl _, fun _ _ => rfl⟩
  | depth + 1, b, isMaximizing, player, alpha, beta, hab => by
    simp only [minimax, minimaxFull]
    split
    · exact ⟨fun _ => le_refl _, fun _ => le_refl _, fun _ _ => rfl⟩
    · split
      · exact maxLoop_triple _ player
          (fun b' => minimaxFull depth b' false player) beta
          (fun b' a bt => minimax_snd depth b' false player a bt)
          (fun b' alpha' h' => minimax_triple depth b' false player alpha' beta h')
          b (getCandidateMoves b) alpha ⊥ hab
          (fun m hm => getCandidateMoves_empty hm)
      · exact minLoop_triple _ (3 - player)
          (fun b' => minimaxFull depth b' true player) alpha
          (fun b' a bt => minimax_snd depth b' true player a bt)
          (fun b' beta' h' => minimax_triple depth b' true player alpha beta' h')
          b (getCandidateMoves b) beta ⊤ hab
          (fun m hm => getCandidateMoves_empty hm)

/-- C6: Called with the full window `(-inf, inf)`, the alpha-beta search
returns exactly the value of the exhaustive unpruned minimax of the same
depth, with the same candidate generator and the same terminal evaluation,
for every grid, maximizing flag, root player and depth. -/
theorem alphabeta_eq_full_minimax (depth : ℕ) (b : Board) (isMaximizing : Bool)
    (player : ℤ) :
    (minimax depth b isMaximizing player ⊥ ⊤).1
      = minimaxFull depth b isMaximizing player := by
  have h := minimax_triple depth b isMaximizing player ⊥ ⊤ bot_lt_top
  rcases le_or_lt (minimax depth b isMaximizing player ⊥ ⊤).1 ⊥ with h1 | h1
  · have hb : (minimax depth b isMaximizing player ⊥ ⊤).1 = ⊥ := le_bot_iff.1 h1
    have hv := h.1 h1
    rw [hb] at hv ⊢
    exact (le_bot_iff.1 hv).symm
  · rcases lt_or_le (minimax depth b isMaximizing player ⊥ ⊤).1 ⊤ with h2 | h2
    · exact h.2.2 h1 h2
    · have ht : (minimax depth b isMaximizing player ⊥ ⊤).1 = ⊤ := top_le_iff.1 h2
      have hv := h.2.1 h2
      rw [ht] at hv ⊢
      exact (top_le_iff.1 hv).symm

/-! ### Characterization of the directional walks and of `_check_five_in_row` -/

theorem countStep_le_fuel (b : Board) (p dr dc : ℤ) :
    ∀ (fuel : ℕ) (r c : ℤ), countStep b p dr dc fuel r c ≤ fuel
  | 0, _, _ => le_refl 0
  | fuel + 1, r, c => by
    simp only [countStep]
    split
    · exact Nat.succ_le_succ (countStep_le_fuel b p dr dc fuel _ _)
    · exact Nat.zero_le _

theorem le_countStep_iff (b : Board) (p dr dc : ℤ) :
    ∀ (k fuel : ℕ) (r c : ℤ), k ≤ fuel →
      (k ≤ countStep b p dr dc fuel r c ↔
        ∀ t : ℕ, t < k → cellGood b p (r + (t : ℤ) * dr) (c + (t : ℤ) * dc)) := by
  intro k
  induction k with
  | zero =>
    intro fuel r c _
    simp
  | succ k ih =>
    intro fuel r c hk
    match fuel, hk with
    | fuel + 1, hk =>
      simp only [countStep]
      by_cases hg : cellGood b p r c
      · rw [if_pos hg, Nat.succ_le_succ_iff,
          ih fuel (r + dr) (c + dc) (Nat.succ_le_succ_iff.1 hk)]
        constructor
        · intro h t ht
          match t, ht with
          | 0, _ =>
            simpa using hg
          | t + 1, ht =>
            have := h t (Nat.succ_lt_succ_iff.1 ht)
            have harith : r + dr + (t : ℤ) * dr = r + ((t : ℤ) + 1) * dr ∧
                c + dc + (t : ℤ) * dc = c + ((t : ℤ) + 1) * dc := by
              constructor <;> ring
            rw [harith.1, harith.2] at this
            simpa using this
        · intro h t ht
          have := h (t + 1) (Nat.succ_lt_succ ht)
          have harith : r + ((t : ℤ) + 1) * dr = r + dr + (t : ℤ) * dr ∧
              c + ((t : ℤ) + 1) * dc = c + dc + (t : ℤ) * dc := by
            constructor <;> ring
          push_cast at this
          rw [harith.1, harith.2] at this
          exact this
      · rw [if_neg hg]
        constructor
        · intro h
          exact absurd h (by omega)
        · intro h
          exact absurd (by simpa using h 0 (Nat.succ_pos k)) hg

/-- The walk characterization specialized to the full walk itself. -/
theorem countStep_good (b : Board) (p dr dc : ℤ) (fuel : ℕ) (r c : ℤ) :
    ∀ t : ℕ, t < countStep b p dr dc fuel r c →
      cellGood b p (r + (t : ℤ) * dr) (c + (t : ℤ) * dc) :=
  (le_countStep_iff b p dr dc _ fuel r c (countStep_le_fuel b p dr dc fuel r c)).1
    (le_refl _)

/-- The anchored directional count reaches 5 exactly when some window of five
consecutive cells along the direction, containing the anchor, consists of
in-bounds cells of the player (the anchor itself must be such a cell). -/
theorem countConsecutive_five_iff (b : Board) (p row col dr dc : ℤ)
    (hanchor : cellGood b p row col) :
    5 ≤ countConsecutive b row col dr dc p ↔
      ∃ s : ℤ, -4 ≤ s ∧ s ≤ 0 ∧ ∀ u : ℤ, 0 ≤ u → u ≤ 4 →
        cellGood b p (row + (s + u) * dr) (col + (s + u) * dc) := by
  unfold countConsecutive
  set F := countStep b p dr dc 15 (row + dr) (col + dc) with hF_def
  set B := countStep b p (-dr) (-dc) 15 (row - dr) (col - dc) with hB_def
  have hFgood : ∀ t : ℕ, t < F →
      cellGood b p (row + ((t : ℤ) + 1) * dr) (col + ((t : ℤ) + 1) * dc) := by
    intro t ht
    have h := countStep_good b p dr dc 15 (row + dr) (col + dc) t ht
    rw [show row + dr + (t : ℤ) * dr = row + ((t : ℤ) + 1) * dr by ring,
      show col + dc + (t : ℤ) * dc = col + ((t : ℤ) + 1) * dc by ring] at h
    exact h
  have hBgood : ∀ t : ℕ, t < B →
      cellGood b p (row - ((t : ℤ) + 1) * dr) (col - ((t : ℤ) + 1) * dc) := by
    intro t ht
    have h := countStep_good b p (-dr) (-dc) 15 (row - dr) (col - dc) t ht
    rw [show row - dr + (t : ℤ) * -dr = row - ((t : ℤ) + 1) * dr by ring,
      show col - dc + (t : ℤ) * -dc = col - ((t : ℤ) + 1) * dc by ring] at h
    exact h
  constructor
  · intro h
    have hFB : 4 ≤ F + B := by omega
    have hmin1 : min B 4 ≤ B := min_le_left _ _
    have hmin2 : min B 4 ≤ 4 := min_le_right _ _
    have hmin3 : min B 4 = B ∨ min B 4 = 4 := by omega
    refine ⟨-((min B 4 : ℕ) : ℤ), by omega, by omega, ?_⟩
    intro u hu0 hu4
    set o := -((min B 4 : ℕ) : ℤ) + u with ho_def
    rcases lt_trichotomy o 0 with ho | ho | ho
    · have ht : (-o).toNat - 1 < B := by omega
      have hcell := hBgood ((-o).toNat - 1) ht
      have hcast : (((-o).toNat - 1 : ℕ) : ℤ) + 1 = -o := by omega
      rw [hcast, show row - -o * dr = row + o * dr by ring,
        show col - -o * dc = col + o * dc by ring] at hcell
      exact hcell
    · rw [show row + o * dr = row by rw [ho]; ring,
        show col + o * dc = col by rw [ho]; ring]
      exact hanchor
    · have hoF : o ≤ (F : ℤ) := by omega
      have ht : o.toNat - 1 < F := by omega
      have hcell := hFgood (o.toNat - 1) ht
      have hcast : ((o.toNat - 1 : ℕ) : ℤ) + 1 = o := by omega
      rw [hcast] at hcell
      exact hcell
  · rintro ⟨s, hs1, hs2, hwin⟩
    have h1 : (s + 4).toNat ≤ F := by
      apply (le_countStep_iff b p dr dc ((s + 4).toNat) 15 (row + dr) (col + dc)
        (by omega)).2
      intro t ht
      have hu := hwin ((t : ℤ) + 1 - s) (by omega) (by omega)
      rw [show row + (s + ((t : ℤ) + 1 - s)) * dr = row + dr + (t : ℤ) * dr by ring,
        show col + (s + ((t : ℤ) + 1 - s)) * dc = col + dc + (t : ℤ) * dc by ring] at hu
      exact hu
    have h2 : (-s).toNat ≤ B := by
      apply (le_countStep_iff b p (-dr) (-dc) ((-s).toNat) 15 (row - dr) (col - dc)
        (by omega)).2
      intro t ht
      have hu := hwin (-(t : ℤ) - 1 - s) (by omega) (by omega)
      rw [show row + (s + (-(t : ℤ) - 1 - s)) * dr = row - dr + (t : ℤ) * -dr by ring,
        show col + (s + (-(t : ℤ) - 1 - s)) * dc = col - dc + (t : ℤ) * -dc by ring] at hu
      exact hu
    omega

/-- The specification's notion of an immediate five-in-a-row through a cell:
some axis direction carries a window of five consecutive in-bounds cells of
the player containing the cell. -/
def runOfFiveThrough (b : Board) (p row col : ℤ) : Prop :=
  ∃ d ∈ directions, ∃ s ∈ intRange (-4) 1, ∀ u ∈ intRange 0 5,
    cellGood b p (row + (s + u) * d.1) (col + (s + u) * d.2)

theorem checkFiveInRow_iff_run (b : Board) (p row col : ℤ)
    (hanchor : cellGood b p row col) :
    checkFiveInRow b row col p = true ↔ runOfFiveThrough b p row col := by
  unfold checkFiveInRow runOfFiveThrough
  rw [List.any_eq_true]
  constructor
  · rintro ⟨d, hd, hcount⟩
    rw [decide_eq_true_eq] at hcount
    obtain ⟨s, hs1, hs2, hwin⟩ :=
      (countConsecutive_five_iff b p row col d.1 d.2 hanchor).1 hcount
    exact ⟨d, hd, s, mem_intRange.2 ⟨hs1, by omega⟩,
      fun u hu => hwin u (mem_intRange.1 hu).1 (by have := (mem_intRange.1 hu).2; omega)⟩
  · rintro ⟨d, hd, s, hs, hwin⟩
    refine ⟨d, hd, ?_⟩
    rw [decide_eq_true_eq]
    apply (countConsecutive_five_iff b p row col d.1 d.2 hanchor).2
    exact ⟨s, (mem_intRange.1 hs).1, by have := (mem_intRange.1 hs).2; omega,
      fun u hu0 hu4 => hwin u (mem_intRange.2 ⟨hu0, by omega⟩)⟩

/-- The winning-placement test applied at one cell of the scan: the cell is
currently empty, and placing `player`'s stone there passes
`_check_five_in_row`. -/
def winProbe (b : Board) (player : ℤ) (m : ℤ × ℤ) : Bool :=
  decide (b m.1 m.2 = 0) &&
    checkFiveInRow (setCell b m.1 m.2 player) m.1 m.2 player

/-- `_find_winning_move`'s loop is the first-match scan `List.find?` with the
grid restored. -/
theorem findWinLoop_eq (player : ℤ) :
    ∀ (l : List (ℤ × ℤ)) (b : Board),
      findWinLoop player b l = (l.find? (winProbe b player), b)
  | [], b => rfl
  | m :: rest, b => by
    simp only [findWinLoop]
    by_cases hempty : b m.1 m.2 = 0
    · rw [if_pos hempty]
      by_cases hcheck :
          checkFiveInRow (setCell b m.1 m.2 player) m.1 m.2 player = true
      · rw [if_pos hcheck, undo_setCell b m.1 m.2 player hempty]
        have hp : winProbe b player m = true := by
          simp [winProbe, hempty, hcheck]
        rw [List.find?_cons_of_pos rest hp]
      · rw [if_neg hcheck, undo_setCell b m.1 m.2 player hempty]
        have hp : winProbe b player m = false := by
          simp [winProbe, hcheck]
        rw [findWinLoop_eq player rest b, List.find?_cons_of_neg rest (by simp [hp])]
    · rw [if_neg hempty]
      have hp : winProbe b player m = false := by
        simp [winProbe, hempty]
      rw [findWinLoop_eq player rest b, List.find?_cons_of_neg rest (by simp [hp])]

/-- The specification's characterization of a winning cell: an in-bounds empty
cell where placing the player's stone yields a five-in-a-row through it. -/
def winCell (b : Board) (player : ℤ) (m : ℤ × ℤ) : Prop :=
  0 ≤ m.1 ∧ m.1 < 15 ∧ 0 ≤ m.2 ∧ m.2 < 15 ∧ b m.1 m.2 = 0 ∧
    runOfFiveThrough (setCell b m.1 m.2 player) player m.1 m.2

instance runOfFiveThrough.instDecidable (b : Board) (p row col : ℤ) :
    Decidable (runOfFiveThrough b p row col) := by
  unfold runOfFiveThrough
  exact inferInstance

instance winCell.instDecidable (b : Board) (player : ℤ) (m : ℤ × ℤ) :
    Decidable (winCell b player m) := by
  unfold winCell
  exact inferInstance

theorem winProbe_iff_winCell {b : Board} {player : ℤ} {m : ℤ × ℤ}
    (hm : m ∈ allPositions) : winProbe b player m = true ↔ winCell b player m := by
  obtain ⟨h1, h2, h3, h4⟩ := mem_allPositions.1 hm
  unfold winProbe winCell
  rw [Bool.and_eq_true, decide_eq_true_eq]
  constructor
  · rintro ⟨hempty, hcheck⟩
    refine ⟨h1, h2, h3, h4, hempty, ?_⟩
    exact (checkFiveInRow_iff_run _ player m.1 m.2
      ⟨h1, h2, h3, h4, setCell_self b m.1 m.2 player⟩).1 hcheck
  · rintro ⟨_, _, _, _, hempty, hrun⟩
    exact ⟨hempty, (checkFiveInRow_iff_run _ player m.1 m.2
      ⟨h1, h2, h3, h4, setCell_self b m.1 m.2 player⟩).2 hrun⟩

theorem winCell_mem_allPositions {b : Board} {player : ℤ} {m : ℤ × ℤ}
    (h : winCell b player m) : m ∈ allPositions :=
  mem_allPositions.2 ⟨h.1, h.2.1, h.2.2.1, h.2.2.2.1⟩

/-- Row-major precedence on positions: smaller row, or equal row and smaller
column. -/
def rowMajorLt (m m' : ℤ × ℤ) : Prop :=
  m.1 < m'.1 ∨ (m.1 = m'.1 ∧ m.2 < m'.2)

theorem allPositions_pairwise : allPositions.Pairwise rowMajorLt := by
  have hr : (intRange 0 15).Pairwise (fun x y : ℤ => x < y) := by
    unfold intRange
    refine List.Pairwise.map _ ?_ (List.pairwise_lt_range 15)
    intro a b h
    omega
  unfold allPositions
  apply List.pairwise_flatMap.2
  refine ⟨?_, ?_⟩
  · intro i _
    refine List.Pairwise.map _ ?_ hr
    intro a b h
    exact Or.inr ⟨rfl, h⟩
  · refine List.Pairwise.imp ?_ hr
    intro i1 i2 h x hx y hy
    obtain ⟨j1, _, rfl⟩ := List.mem_map.1 hx
    obtain ⟨j2, _, rfl⟩ := List.mem_map.1 hy
    exact Or.inl h

/-- `List.find?` over a pairwise-ordered list returns the least match. -/
theorem find?_first {α : Type} {q : α → Bool} {R : α → α → Prop} :
    ∀ {l : List α}, l.Pairwise R → ∀ {a : α}, l.find? q = some a →
      ∀ x ∈ l, q x = true → x = a ∨ R a x
  | [], _, a, h => by simp at h
  | y :: t, hp, a, h => by
    rcases List.pairwise_cons.1 hp with ⟨hy, ht⟩
    by_cases hqy : q y = true
    · rw [List.find?_cons_of_pos t hqy] at h
      obtain rfl : y = a := by injection h
      intro x hx _
      rcases List.mem_cons.1 hx with rfl | hx
      · exact Or.inl rfl
      · exact Or.inr (hy x hx)
    · rw [List.find?_cons_of_neg t (by simpa using hqy)] at h
      intro x hx hqx
      rcases List.mem_cons.1 hx with rfl | hx
      · exact absurd hqx hqy
      · exact find?_first ht h x hx hqx

theorem findWinningMove_fst (b : Board) (player : ℤ) :
    (findWinningMove b player).1 = allPositions.find? (winProbe b player) := by
  unfold findWinningMove
  rw [findWinLoop_eq]

theorem findWinningMove_none_iff (b : Board) (player : ℤ) :
    (findWinningMove b player).1 = none ↔ ∀ m : ℤ × ℤ, ¬ winCell b player m := by
  rw [findWinningMove_fst, List.find?_eq_none]
  constructor
  · intro h m hm
    exact h m (winCell_mem_allPositions hm) ((winProbe_iff_winCell
      (winCell_mem_allPositions hm)).2 hm)
  · intro h m hm hp
    exact h m ((winProbe_iff_winCell hm).1 hp)

theorem findWinningMove_some {b : Board} {player : ℤ} {m : ℤ × ℤ}
    (h : (findWinningMove b player).1 = some m) :
    winCell b player m ∧
      ∀ m' : ℤ × ℤ, winCell b player m' → m' = m ∨ rowMajorLt m m' := by
  rw [findWinningMove_fst] at h
  have hmem := List.mem_of_find?_eq_some h
  have hq := List.find?_some h
  refine ⟨(winProbe_iff_winCell hmem).1 hq, ?_⟩
  intro m' hm'
  exact find?_first allPositions_pairwise h m' (winCell_mem_allPositions hm')
    ((winProbe_iff_winCell (winCell_mem_allPositions hm')).2 hm')

/-- C3: `_find_winning_move` returns a move iff there is an empty cell
where placing the player's stone yields a run of length at least 5 through it
in one of the four axis directions; among qualifying cells it returns the
row-major-first one, and the grid is handed back exactly as given regardless
of the outcome. -/
theorem findWinningMove_spec (b : Board) (player : ℤ) :
    (findWinningMove b player).2 = b ∧
    ((findWinningMove b player).1 = none ↔ ∀ m : ℤ × ℤ, ¬ winCell b player m) ∧
    ((∃ m : ℤ × ℤ, winCell b player m) → ∃ m : ℤ × ℤ,
      (findWinningMove b player).1 = some m) ∧
    (∀ m : ℤ × ℤ, (findWinningMove b player).1 = some m →
      winCell b player m ∧
        ∀ m' : ℤ × ℤ, winCell b player m' → m' = m ∨ rowMajorLt m m') :=
  ⟨findWinningMove_snd b player,
   findWinningMove_none_iff b player,
   by
     rintro ⟨m, hm⟩
     cases hw : (findWinningMove b player).1 with
     | none => exact absurd hm ((findWinningMove_none_iff b player).1 hw m)
     | some m0 => exact ⟨m0, rfl⟩,
   fun m h => findWinningMove_some h⟩

/-- C2: In the Expert tier, with at least the stated empty cell present:
an immediate winning cell for the side to move is returned (the row-major
first one) straight from the threat scan; failing that, an immediate winning
cell of the opponent is returned as the block; and only when neither exists
does `getMove` fall through to the enhanced depth-6 search. -/
theorem expertMove_shortcuts (b : Board) (player : ℤ) (coin : Bool) (idx : ℕ) :
    ((∃ m : ℤ × ℤ, winCell b player m) →
      ∃ m : ℤ × ℤ, (getMove AIDifficulty.expert b player coin idx).1 = some m ∧
        winCell b player m ∧
        ∀ m' : ℤ × ℤ, winCell b player m' → m' = m ∨ rowMajorLt m m') ∧
    ((∀ m : ℤ × ℤ, ¬ winCell b player m) →
      (∃ m : ℤ × ℤ, winCell b (3 - player) m) →
      ∃ m : ℤ × ℤ, (getMove AIDifficulty.expert b player coin idx).1 = some m ∧
        winCell b (3 - player) m ∧
        ∀ m' : ℤ × ℤ, winCell b (3 - player) m' → m' = m ∨ rowMajorLt m m') ∧
    ((∀ m : ℤ × ℤ, ¬ winCell b player m) →
      (∀ m : ℤ × ℤ, ¬ winCell b (3 - player) m) →
      getMove AIDifficulty.expert b player coin idx = enhancedMinimaxMove b player) := by
  have hsnd1 := findWinningMove_snd b player
  refine ⟨?_, ?_, ?_⟩
  · rintro ⟨m, hm⟩
    cases hw : (findWinningMove b player).1 with
    | none => exact absurd hm ((findWinningMove_none_iff b player).1 hw m)
    | some m0 =>
      refine ⟨m0, ?_, findWinningMove_some hw⟩
      show (expertMove b player).1 = some m0
      simp only [expertMove, hw]
  · intro hnone
    rintro ⟨m, hm⟩
    have hw1 : (findWinningMove b player).1 = none :=
      (findWinningMove_none_iff b player).2 hnone
    cases hw2 : (findWinningMove b (3 - player)).1 with
    | none => exact absurd hm ((findWinningMove_none_iff b (3 - player)).1 hw2 m)
    | some m0 =>
      refine ⟨m0, ?_, findWinningMove_some hw2⟩
      show (expertMove b player).1 = some m0
      simp only [expertMove, hw1, hsnd1, hw2]
  · intro hnone1 hnone2
    have hw1 : (findWinningMove b player).1 = none :=
      (findWinningMove_none_iff b player).2 hnone1
    have hw2 : (findWinningMove b (3 - player)).1 = none :=
      (findWinningMove_none_iff b (3 - player)).2 hnone2
    show expertMove b player = enhancedMinimaxMove b player
    simp only [expertMove, hw1, hsnd1, hw2, findWinningMove_snd]

/-! ### The anchor cell never influences the directional counts -/

theorem countStep_setCell (b : Board) (p v row col dr dc : ℤ)
    (hd : ¬(dr = 0 ∧ dc = 0)) :
    ∀ (fuel : ℕ) (j : ℤ), 1 ≤ j →
      countStep (setCell b row col v) p dr dc fuel (row + j * dr) (col + j * dc)
        = countStep b p dr dc fuel (row + j * dr) (col + j * dc)
  | 0, _, _ => rfl
  | fuel + 1, j, hj => by
    have hne : ¬(row + j * dr = row ∧ col + j * dc = col) := by
      rintro ⟨h1, h2⟩
      apply hd
      have hdr : j * dr = 0 := by omega
      have hdc : j * dc = 0 := by omega
      constructor
      · rcases mul_eq_zero.1 hdr with h | h
        · omega
        · exact h
      · rcases mul_eq_zero.1 hdc with h | h
        · omega
        · exact h
    have hread : setCell b row col v (row + j * dr) (col + j * dc)
        = b (row + j * dr) (col + j * dc) := setCell_of_ne b row col v _ _ hne
    have hcond : cellGood (setCell b row col v) p (row + j * dr) (col + j * dc)
        ↔ cellGood b p (row + j * dr) (col + j * dc) := by
      unfold cellGood
      rw [hread]
    simp only [countStep]
    by_cases h : cellGood b p (row + j * dr) (col + j * dc)
    · rw [if_pos (hcond.2 h), if_pos h]
      have harith : row + j * dr + dr = row + (j + 1) * dr ∧
          col + j * dc + dc = col + (j + 1) * dc := by constructor <;> ring
      rw [harith.1, harith.2,
        countStep_setCell b p v row col dr dc hd fuel (j + 1) (by omega)]
    · rw [if_neg (fun hh => h (hcond.1 hh)), if_neg h]

theorem countConsecutive_setCell (b : Board) (p v row col dr dc : ℤ)
    (hd : ¬(dr = 0 ∧ dc = 0)) :
    countConsecutive (setCell b row col v) row col dr dc p
      = countConsecutive b row col dr dc p := by
  unfold countConsecutive
  have hd' : ¬(-dr = 0 ∧ -dc = 0) := by
    rintro ⟨h1, h2⟩
    exact hd ⟨by omega, by omega⟩
  have hF := countStep_setCell b p v row col dr dc hd 15 1 (le_refl 1)
  have hB := countStep_setCell b p v row col (-dr) (-dc) hd' 15 1 (le_refl 1)
  rw [show row + 1 * dr = row + dr by ring, show col + 1 * dc = col + dc by ring] at hF
  rw [show row + 1 * -dr = row - dr by ring, show col + 1 * -dc = col - dc by ring] at hB
  rw [hF, hB]

/-- C9: For every grid, anchor cell, source direction and player: the
directional count `_count_consecutive` is at least 1, and it never reads the
anchor cell — overwriting the anchor with any value leaves it unchanged, so
`_evaluate_position` and `_evaluate_move_threat` score the anchor as if it
were the player's own stone no matter what it actually holds. -/
theorem countConsecutive_anchor_independent (b : Board) (row col p v : ℤ) :
    (∀ d ∈ directions,
      1 ≤ countConsecutive b row col d.1 d.2 p ∧
      countConsecutive (setCell b row col v) row col d.1 d.2 p
        = countConsecutive b row col d.1 d.2 p) ∧
    evaluatePosition (setCell b row col v) row col p
      = evaluatePosition b row col p ∧
    (evaluateMoveThreat (setCell b row col v) (row, col) p).1
      = (evaluateMoveThreat b (row, col) p).1 := by
  have hdirs : ∀ d ∈ directions, ¬(d.1 = 0 ∧ d.2 = 0) := by decide
  refine ⟨?_, ?_, ?_⟩
  · intro d hd
    refine ⟨?_, countConsecutive_setCell b p v row col d.1 d.2 (hdirs d hd)⟩
    unfold countConsecutive
    omega
  · simp only [evaluatePosition, directions, List.foldl_cons, List.foldl_nil,
      evaluateDirection]
    rw [countConsecutive_setCell b p v row col 0 1 (by simp),
      countConsecutive_setCell b p v row col 1 0 (by simp),
      countConsecutive_setCell b p v row col 1 1 (by simp),
      countConsecutive_setCell b p v row col 1 (-1) (by simp)]
  · simp only [evaluateMoveThreat, setCell_setCell]

/-! ### The three-stage candidate rule -/

/-- The specification's neighbor condition: some other in-bounds cell within
Chebyshev distance 2 is non-empty. -/
def neighborSpec (b : Board) (pos : ℤ × ℤ) : Prop :=
  ∃ i ∈ intRange 0 15, ∃ j ∈ intRange 0 15,
    (i, j) ≠ pos ∧ |i - pos.1| ≤ 2 ∧ |j - pos.2| ≤ 2 ∧ b i j ≠ 0

/-- The specification's center fallback condition: within Chebyshev distance 2
of the board center `(7, 7)`. -/
def centerSpec (pos : ℤ × ℤ) : Prop := |pos.1 - 7| ≤ 2 ∧ |pos.2 - 7| ≤ 2

instance neighborSpec.instDecidable (b : Board) (pos : ℤ × ℤ) :
    Decidable (neighborSpec b pos) := by
  unfold neighborSpec
  exact inferInstance

instance centerSpec.instDecidable (pos : ℤ × ℤ) : Decidable (centerSpec pos) := by
  unfold centerSpec
  exact inferInstance

theorem hasNeighbors_iff (b : Board) (pos : ℤ × ℤ) :
    hasNeighbors b pos = true ↔ neighborSpec b pos := by
  unfold hasNeighbors neighborSpec
  simp only [List.any_eq_true, decide_eq_true_eq, mem_intRange]
  constructor
  · rintro ⟨i, hi, j, hj, hne, hocc⟩
    refine ⟨i, ⟨by omega, by omega⟩, j, ⟨by omega, by omega⟩, ?_, ?_, ?_, hocc⟩
    · intro heq
      rcases hne with h | h
      · exact h (congrArg Prod.fst heq)
      · exact h (congrArg Prod.snd heq)
    · rw [abs_le]
      omega
    · rw [abs_le]
      omega
  · rintro ⟨i, hi, j, hj, hne, hd1, hd2, hocc⟩
    rw [abs_le] at hd1 hd2
    refine ⟨i, ⟨by omega, by omega⟩, j, ⟨by omega, by omega⟩, ?_, hocc⟩
    by_contra hcon
    push_neg at hcon
    exact hne (by rw [hcon.1, hcon.2])

theorem hasNeighbors_eq_decide (b : Board) (pos : ℤ × ℤ) :
    hasNeighbors b pos = decide (neighborSpec b pos) := by
  by_cases h : neighborSpec b pos
  · rw [(hasNeighbors_iff b pos).2 h, decide_eq_true h]
  · rw [decide_eq_false h]
    exact Bool.eq_false_iff.2 (fun hc => h ((hasNeighbors_iff b pos).1 hc))

/-- The three-stage candidate rule as the specification words it: the empty
cells having a non-empty cell within Chebyshev distance 2; failing that, the
empty cells within Chebyshev distance 2 of the center; failing that, all the
empty cells. -/
def specCandidates (b : Board) : List (ℤ × ℤ) :=
  if (getEmptyPositions b).filter (fun pos => decide (neighborSpec b pos)) ≠ [] then
    (getEmptyPositions b).filter (fun pos => decide (neighborSpec b pos))
  else if (getEmptyPositions b).filter (fun pos => decide (centerSpec pos)) ≠ [] then
    (getEmptyPositions b).filter (fun pos => decide (centerSpec pos))
  else getEmptyPositions b

theorem getCandidateMoves_eq_spec (b : Board) :
    getCandidateMoves b = specCandidates b := by
  simp only [getCandidateMoves, specCandidates]
  have h1 : (getEmptyPositions b).filter (fun pos => hasNeighbors b pos)
      = (getEmptyPositions b).filter (fun pos => decide (neighborSpec b pos)) :=
    List.filter_congr (fun pos _ => hasNeighbors_eq_decide b pos)
  have h2 : (getEmptyPositions b).filter (fun pos =>
        decide ((pos.1 - 7).natAbs ≤ 2 ∧ (pos.2 - 7).natAbs ≤ 2))
      = (getEmptyPositions b).filter (fun pos => decide (centerSpec pos)) :=
    List.filter_congr (fun pos _ => decide_eq_decide.2 (by
      unfold centerSpec
      rw [Int.abs_eq_natAbs, Int.abs_eq_natAbs]
      omega))
  rw [h1, h2]
  set e := getEmptyPositions b with he_def
  set s1 := e.filter (fun pos => decide (neighborSpec b pos)) with hs1_def
  set s2 := e.filter (fun pos => decide (centerSpec pos)) with hs2_def
  by_cases hs1 : s1 = []
  · by_cases he : e = []
    · have hs2' : s2 = [] := by rw [hs2_def, he]; rfl
      rw [if_neg (fun hc : s1 = [] ∧ e ≠ [] => hc.2 he), if_pos hs1,
        if_neg (fun hc : s1 ≠ [] => hc hs1), if_neg (fun hc : s2 ≠ [] => hc hs2')]
    · rw [if_pos (⟨hs1, he⟩ : s1 = [] ∧ e ≠ [])]
      by_cases hs2 : s2 = []
      · rw [if_pos hs2, if_neg (fun hc : s1 ≠ [] => hc hs1),
          if_neg (fun hc : s2 ≠ [] => hc hs2)]
      · rw [if_neg hs2, if_neg (fun hc : s1 ≠ [] => hc hs1), if_pos hs2]
  · rw [if_neg (fun hc : s1 = [] ∧ e ≠ [] => hs1 hc.1), if_neg hs1, if_pos hs1]

/-- C7: For every grid with at least one empty cell the Move Generator
returns a non-empty sequence, every returned cell is an in-bounds empty cell
of the input grid, and the returned list is exactly the specification's
three-stage rule (neighboring cells, else center cells, else all empty
cells). -/
theorem candidate_moves_spec (b : Board) :
    (getEmptyPositions b ≠ [] → getCandidateMoves b ≠ []) ∧
    (∀ m ∈ getCandidateMoves b,
      (0 ≤ m.1 ∧ m.1 < 15 ∧ 0 ≤ m.2 ∧ m.2 < 15) ∧ b m.1 m.2 = 0) ∧
    getCandidateMoves b = specCandidates b :=
  ⟨getCandidateMoves_ne_nil,
   fun _ hm => mem_getEmptyPositions.1 (getCandidateMoves_subset hm),
   getCandidateMoves_eq_spec b⟩

/-! ### The exhausted board and the empty-cell guarantee -/

theorem findWinningMove_none_of_full {b : Board} (h : getEmptyPositions b = [])
    (player : ℤ) : (findWinningMove b player).1 = none := by
  rw [findWinningMove_fst, List.find?_eq_none]
  intro m hm
  have hne : ¬ b m.1 m.2 = 0 := by
    intro hempty
    have : m ∈ getEmptyPositions b :=
      mem_getEmptyPositions.2 ⟨mem_allPositions.1 hm, hempty⟩
    rw [h] at this
    exact absurd this (List.not_mem_nil m)
  simp [winProbe, hne]

theorem scoreMovesLoop_fst_map_snd (player : ℤ) :
    ∀ (l : List (ℤ × ℤ)) (b : Board),
      ((scoreMovesLoop player b l).1.map (fun x => x.2)) = l
  | [], _ => rfl
  | m :: rest, b => by
    simp only [scoreMovesLoop, List.map_cons]
    rw [scoreMovesLoop_fst_map_snd player rest]

theorem getPriorityMoves_subset {b : Board} {player : ℤ} {m : ℤ × ℤ}
    (h : m ∈ (getPriorityMoves b player).1) : m ∈ getCandidateMoves b := by
  simp only [getPriorityMoves, List.mem_map] at h
  obtain ⟨x, hx, rfl⟩ := h
  have hx' := List.mem_mergeSort.1 (List.mem_of_mem_take hx)
  have : x.2 ∈ ((scoreMovesLoop player b (getCandidateMoves b)).1.map
      (fun y => y.2)) := List.mem_map_of_mem _ hx'
  rw [scoreMovesLoop_fst_map_snd] at this
  exact this

theorem getPriorityMoves_ne_nil {b : Board} {player : ℤ}
    (h : getCandidateMoves b ≠ []) : (getPriorityMoves b player).1 ≠ [] := by
  simp only [getPriorityMoves]
  intro hc
  rw [List.map_eq_nil_iff, List.take_eq_nil_iff] at hc
  rcases hc with hc | hc
  · exact absurd hc (by omega)
  · have hlen := ((scoreMovesLoop player b (getCandidateMoves b)).1.mergeSort_perm
      (fun x y => decide (y.1 ≤ x.1))).length_eq
    rw [hc] at hlen
    have : ((scoreMovesLoop player b (getCandidateMoves b)).1.map
        (fun x => x.2)).length = 0 := by
      rw [List.length_map, ← hlen]
      rfl
    rw [scoreMovesLoop_fst_map_snd] at this
    exact h (List.eq_nil_of_length_eq_zero this)

theorem getPriorityMoves_nil_of_candidates_nil {b : Board} {player : ℤ}
    (h : getCandidateMoves b = []) : (getPriorityMoves b player).1 = [] := by
  simp only [getPriorityMoves, h, scoreMovesLoop, List.mergeSort_nil, List.take_nil,
    List.map_nil]

theorem rootLoop_fst_mem (f : Board → Score × Board) (player : ℤ) :
    ∀ (moves : List (ℤ × ℤ)) (b : Board) (bestScore : Score)
      (best : Option (ℤ × ℤ)) (m : ℤ × ℤ),
      (rootLoop f player b moves bestScore best).1 = some m →
      m ∈ moves ∨ best = some m
  | [], _, _, best, m, h => Or.inr h
  | m0 :: rest, b, bestScore, best, m, h => by
    simp only [rootLoop] at h
    split at h
    · rcases rootLoop_fst_mem f player rest _ _ _ m h with hm | hm
      · exact Or.inl (List.mem_cons_of_mem m0 hm)
      · have hm0 : m0 = m := by injection hm
        exact Or.inl (hm0 ▸ List.mem_cons_self m0 rest)
    · rcases rootLoop_fst_mem f player rest _ _ _ m h with hm | hm
      · exact Or.inl (List.mem_cons_of_mem m0 hm)
      · exact Or.inr hm

theorem enhancedRootLoop_fst_mem (player : ℤ) :
    ∀ (moves : List (ℤ × ℤ)) (b : Board) (bestScore : EScore)
      (best : Option (ℤ × ℤ)) (m : ℤ × ℤ),
      (enhancedRootLoop player b moves bestScore best).1 = some m →
      m ∈ moves ∨ best = some m
  | [], _, _, best, m, h => Or.inr h
  | m0 :: rest, b, bestScore, best, m, h => by
    simp only [enhancedRootLoop] at h
    split at h
    · rcases enhancedRootLoop_fst_mem player rest _ _ _ m h with hm | hm
      · exact Or.inl (List.mem_cons_of_mem m0 hm)
      · have hm0 : m0 = m := by injection hm
        exact Or.inl (hm0 ▸ List.mem_cons_self m0 rest)
    · rcases enhancedRootLoop_fst_mem player rest _ _ _ m h with hm | hm
      · exact Or.inl (List.mem_cons_of_mem m0 hm)
      · exact Or.inr hm

theorem head?_mem_of_ne_nil {α : Type} {l : List α} (h : l ≠ []) :
    ∃ a, l.head? = some a ∧ a ∈ l := by
  cases l with
  | nil => exact absurd rfl h
  | cons x t => exact ⟨x, rfl, List.mem_cons_self x t⟩

theorem getElem?_mod_mem {α : Type} {l : List α} (h : l ≠ []) (idx : ℕ) :
    ∃ a, l[idx % l.length]? = some a ∧ a ∈ l := by
  have hlen : 0 < l.length := List.length_pos.2 h
  have hlt : idx % l.length < l.length := Nat.mod_lt idx hlen
  exact ⟨l[idx % l.length], List.getElem?_eq_getElem hlt, List.getElem_mem hlt⟩

theorem winCell_mem_empty {b : Board} {player : ℤ} {m : ℤ × ℤ}
    (h : winCell b player m) : m ∈ getEmptyPositions b :=
  mem_getEmptyPositions.2 ⟨⟨h.1, h.2.1, h.2.2.1, h.2.2.2.1⟩, h.2.2.2.2.1⟩

/-- C5: For every tier, player, randomness and grid with at least one
empty cell, `getMove` returns the coordinates of a cell that is empty (and in
bounds) in the input grid. -/
theorem getMove_returns_empty_cell (difficulty : AIDifficulty) (b : Board)
    (player : ℤ) (coin : Bool) (idx : ℕ) (h : getEmptyPositions b ≠ []) :
    ∃ m : ℤ × ℤ, (getMove difficulty b player coin idx).1 = some m ∧
      m ∈ getEmptyPositions b := by
  have hcand : getCandidateMoves b ≠ [] := getCandidateMoves_ne_nil h
  have hcandsub : ∀ m ∈ getCandidateMoves b, m ∈ getEmptyPositions b :=
    fun _ hm => getCandidateMoves_subset hm
  cases difficulty with
  | beginner =>
    show ∃ m, (beginnerMove b player coin idx).1 = some m ∧ m ∈ getEmptyPositions b
    simp only [beginnerMove]
    cases coin with
    | false =>
      obtain ⟨a, ha, hmem⟩ := getElem?_mod_mem h idx
      exact ⟨a, ha, hmem⟩
    | true =>
      cases hdef : (findDefensiveMove b player).1 with
      | some m =>
        have hwin : (findWinningMove b (3 - player)).1 = some m := hdef
        exact ⟨m, by simp [hdef], winCell_mem_empty (findWinningMove_some hwin).1⟩
      | none =>
        obtain ⟨a, ha, hmem⟩ := getElem?_mod_mem h idx
        exact ⟨a, by simp [hdef, ha], hmem⟩
  | intermediate =>
    show ∃ m, (intermediateMove b player).1 = some m ∧ m ∈ getEmptyPositions b
    simp only [intermediateMove]
    cases hroot : (rootLoop (fun b' => minimax 2 b' false player ⊥ ⊤) player b
        (getCandidateMoves b) ⊥ none).1 with
    | some m =>
      rcases rootLoop_fst_mem _ player _ b _ _ m hroot with hm | hm
      · exact ⟨m, by simp [hroot], hcandsub m hm⟩
      · exact absurd hm (by simp)
    | none =>
      obtain ⟨a, ha, hmem⟩ := head?_mem_of_ne_nil hcand
      exact ⟨a, by simp [hroot, ha], hcandsub a hmem⟩
  | advance =>
    show ∃ m, (advanceMove b player).1 = some m ∧ m ∈ getEmptyPositions b
    simp only [advanceMove]
    cases hroot : (rootLoop (fun b' => minimax 4 b' false player ⊥ ⊤) player b
        (getCandidateMoves b) ⊥ none).1 with
    | some m =>
      rcases rootLoop_fst_mem _ player _ b _ _ m hroot with hm | hm
      · exact ⟨m, by simp [hroot], hcandsub m hm⟩
      · exact absurd hm (by simp)
    | none =>
      obtain ⟨a, ha, hmem⟩ := head?_mem_of_ne_nil hcand
      exact ⟨a, by simp [hroot, ha], hcandsub a hmem⟩
  | expert =>
    show ∃ m, (expertMove b player).1 = some m ∧ m ∈ getEmptyPositions b
    cases hw1 : (findWinningMove b player).1 with
    | some m =>
      exact ⟨m, by simp [expertMove, hw1], winCell_mem_empty
        (findWinningMove_some hw1).1⟩
    | none =>
      cases hw2 : (findWinningMove b (3 - player)).1 with
      | some m =>
        exact ⟨m, by simp [expertMove, hw1, findWinningMove_snd, hw2],
          winCell_mem_empty (findWinningMove_some hw2).1⟩
      | none =>
        have hexp : expertMove b player = enhancedMinimaxMove b player := by
          simp [expertMove, hw1, findWinningMove_snd, hw2]
        rw [hexp]
        have hpsub : ∀ m ∈ (getPriorityMoves b player).1, m ∈ getEmptyPositions b :=
          fun _ hm => hcandsub _ (getPriorityMoves_subset hm)
        have hpne : (getPriorityMoves b player).1 ≠ [] :=
          getPriorityMoves_ne_nil hcand
        simp only [enhancedMinimaxMove, getPriorityMoves_snd]
        cases hroot : (enhancedRootLoop player b (getPriorityMoves b player).1
            (⊥, 0) none).1 with
        | some m =>
          rcases enhancedRootLoop_fst_mem player _ b _ _ m hroot with hm | hm
          · exact ⟨m, by simp [hroot], hpsub m hm⟩
          · exact absurd hm (by simp)
        | none =>
          obtain ⟨a, ha, hmem⟩ := head?_mem_of_ne_nil hpne
          exact ⟨a, by simp [hroot, ha], hpsub a hmem⟩

/-- C4: On an exhausted board (no empty cell) no tier signals a dedicated
draw condition: every tier reaches an out-of-range indexing step —
`random.choice` on the empty list for Beginner, `candidate_moves[0]` on an
empty candidate list for the searching tiers — embedded here as the `none`
outcome. -/
theorem getMove_exhausted_board (difficulty : AIDifficulty) (b : Board)
    (player : ℤ) (coin : Bool) (idx : ℕ) (h : getEmptyPositions b = []) :
    (getMove difficulty b player coin idx).1 = none := by
  have hcand := getCandidateMoves_of_empty_nil h
  cases difficulty with
  | beginner =>
    show (beginnerMove b player coin idx).1 = none
    simp only [beginnerMove, h]
    split
    · have hdef : (findDefensiveMove b player).1 = none :=
        findWinningMove_none_of_full h (3 - player)
      rw [hdef]
      rfl
    · rfl
  | intermediate =>
    show (intermediateMove b player).1 = none
    simp only [intermediateMove, hcand, rootLoop]
    rfl
  | advance =>
    show (advanceMove b player).1 = none
    simp only [advanceMove, hcand, rootLoop]
    rfl
  | expert =>
    show (expertMove b player).1 = none
    have hw1 : (findWinningMove b player).1 = none := findWinningMove_none_of_full h _
    have hw2 : (findWinningMove b (3 - player)).1 = none :=
      findWinningMove_none_of_full h _
    simp only [expertMove, hw1, findWinningMove_snd, hw2]
    show (enhancedMinimaxMove b player).1 = none
    simp only [enhancedMinimaxMove, getPriorityMoves_nil_of_candidates_nil hcand,
      enhancedRootLoop]
    rfl

/-! ### Every grid access is in bounds: the engine never depends on cells
outside `[0, 15) × [0, 15)` -/

/-- Two grids that agree on all in-bounds cells (they may differ arbitrarily
outside the board). -/
def boardAgree (b1 b2 : Board) : Prop :=
  ∀ r c : ℤ, 0 ≤ r → r < 15 → 0 ≤ c → c < 15 → b1 r c = b2 r c

theorem boardAgree.set {b1 b2 : Board} (h : boardAgree b1 b2) (r c v : ℤ) :
    boardAgree (setCell b1 r c v) (setCell b2 r c v) := by
  intro r' c' h1 h2 h3 h4
  unfold setCell
  split
  · rfl
  · exact h r' c' h1 h2 h3 h4

theorem cellGood_congr {b1 b2 : Board} (h : boardAgree b1 b2) (p r c : ℤ) :
    cellGood b1 p r c ↔ cellGood b2 p r c := by
  unfold cellGood
  constructor
  · rintro ⟨h1, h2, h3, h4, h5⟩
    exact ⟨h1, h2, h3, h4, (h r c h1 h2 h3 h4).symm.trans h5⟩
  · rintro ⟨h1, h2, h3, h4, h5⟩
    exact ⟨h1, h2, h3, h4, (h r c h1 h2 h3 h4).trans h5⟩

theorem countStep_congr {b1 b2 : Board} (h : boardAgree b1 b2) (p dr dc : ℤ) :
    ∀ (fuel : ℕ) (r c : ℤ),
      countStep b1 p dr dc fuel r c = countStep b2 p dr dc fuel r c
  | 0, _, _ => rfl
  | fuel + 1, r, c => by
    simp only [countStep]
    by_cases hg : cellGood b2 p r c
    · rw [if_pos ((cellGood_congr h p r c).2 hg), if_pos hg,
        countStep_congr h p dr dc fuel (r + dr) (c + dc)]
    · rw [if_neg (fun hc => hg ((cellGood_congr h p r c).1 hc)), if_neg hg]

theorem countConsecutive_congr {b1 b2 : Board} (h : boardAgree b1 b2)
    (row col dr dc p : ℤ) :
    countConsecutive b1 row col dr dc p = countConsecutive b2 row col dr dc p := by
  unfold countConsecutive
  rw [countStep_congr h, countStep_congr h]

theorem checkFiveInRow_congr {b1 b2 : Board} (h : boardAgree b1 b2)
    (row col p : ℤ) : checkFiveInRow b1 row col p = checkFiveInRow b2 row col p := by
  unfold checkFiveInRow
  congr 1
  funext d
  rw [countConsecutive_congr h]

theorem list_any_congr {α : Type} {p q : α → Bool} :
    ∀ {l : List α}, (∀ a ∈ l, p a = q a) → l.any p = l.any q
  | [], _ => rfl
  | x :: t, h => by
    simp only [List.any_cons]
    rw [h x (List.mem_cons_self x t),
      list_any_congr (fun a ha => h a (List.mem_cons_of_mem x ha))]

theorem list_foldl_congr {α β : Type} {f g : α → β → α} :
    ∀ {l : List β} (init : α), (∀ x ∈ l, ∀ s, f s x = g s x) →
      l.foldl f init = l.foldl g init
  | [], _, _ => rfl
  | x :: t, init, h => by
    simp only [List.foldl_cons]
    rw [h x (List.mem_cons_self x t) init,
      list_foldl_congr (g init x) (fun y hy => h y (List.mem_cons_of_mem x hy))]

theorem isGameOver_congr {b1 b2 : Board} (h : boardAgree b1 b2) :
    isGameOver b1 = isGameOver b2 := by
  unfold isGameOver
  apply list_any_congr
  intro m hm
  obtain ⟨h1, h2, h3, h4⟩ := mem_allPositions.1 hm
  rw [h m.1 m.2 h1 h2 h3 h4, checkFiveInRow_congr h]

theorem evaluateDirection_congr {b1 b2 : Board} (h : boardAgree b1 b2)
    (row col dr dc p : ℤ) :
    evaluateDirection b1 row col dr dc p = evaluateDirection b2 row col dr dc p := by
  unfold evaluateDirection
  rw [countConsecutive_congr h]

theorem evaluatePosition_congr {b1 b2 : Board} (h : boardAgree b1 b2)
    (row col p : ℤ) :
    evaluatePosition b1 row col p = evaluatePosition b2 row col p := by
  unfold evaluatePosition
  apply list_foldl_congr
  intro d _ s
  rw [evaluateDirection_congr h]

theorem evaluateBoard_congr {b1 b2 : Board} (h : boardAgree b1 b2) (p : ℤ) :
    evaluateBoard b1 p = evaluateBoard b2 p := by
  unfold evaluateBoard
  apply list_foldl_congr
  intro m hm s
  obtain ⟨h1, h2, h3, h4⟩ := mem_allPositions.1 hm
  rw [h m.1 m.2 h1 h2 h3 h4, evaluatePosition_congr h, evaluatePosition_congr h]

theorem getEmptyPositions_congr {b1 b2 : Board} (h : boardAgree b1 b2) :
    getEmptyPositions b1 = getEmptyPositions b2 := by
  unfold getEmptyPositions
  apply List.filter_congr
  intro m hm
  obtain ⟨h1, h2, h3, h4⟩ := mem_allPositions.1 hm
  rw [h m.1 m.2 h1 h2 h3 h4]

theorem hasNeighbors_congr {b1 b2 : Board} (h : boardAgree b1 b2) (pos : ℤ × ℤ) :
    hasNeighbors b1 pos = hasNeighbors b2 pos := by
  unfold hasNeighbors
  apply list_any_congr
  intro i hi
  apply list_any_congr
  intro j hj
  have hi' := mem_intRange.1 hi
  have hj' := mem_intRange.1 hj
  rw [h i j (by omega) (by omega) (by omega) (by omega)]

theorem getCandidateMoves_congr {b1 b2 : Board} (h : boardAgree b1 b2) :
    getCandidateMoves b1 = getCandidateMoves b2 := by
  simp only [getCandidateMoves, getEmptyPositions_congr h]
  rw [List.filter_congr (fun pos _ => hasNeighbors_congr h pos)]

theorem maxLoop_fst_congr (f1 f2 : Board → Score → Score → Score × Board)
    (stone : ℤ)
    (hsnd1 : ∀ b a bt, (f1 b a bt).2 = b) (hsnd2 : ∀ b a bt, (f2 b a bt).2 = b)
    (hf : ∀ b1 b2 a bt, boardAgree b1 b2 → (f1 b1 a bt).1 = (f2 b2 a bt).1) :
    ∀ (moves : List (ℤ × ℤ)) (b1 b2 : Board) (alpha beta acc : Score),
      boardAgree b1 b2 →
      (maxLoop f1 stone b1 alpha beta moves acc).1
        = (maxLoop f2 stone b2 alpha beta moves acc).1
  | [], _, _, _, _, _, _ => rfl
  | m :: rest, b1, b2, alpha, beta, acc, hag => by
    have hev := hf (setCell b1 m.1 m.2 stone) (setCell b2 m.1 m.2 stone) alpha beta
      (hag.set m.1 m.2 stone)
    simp only [maxLoop, hsnd1, hsnd2, setCell_setCell, hev]
    split
    · rfl
    · exact maxLoop_fst_congr f1 f2 stone hsnd1 hsnd2 hf rest _ _ _ _ _
        (hag.set m.1 m.2 0)

theorem minLoop_fst_congr (f1 f2 : Board → Score → Score → Score × Board)
    (stone : ℤ)
    (hsnd1 : ∀ b a bt, (f1 b a bt).2 = b) (hsnd2 : ∀ b a bt, (f2 b a bt).2 = b)
    (hf : ∀ b1 b2 a bt, boardAgree b1 b2 → (f1 b1 a bt).1 = (f2 b2 a bt).1) :
    ∀ (moves : List (ℤ × ℤ)) (b1 b2 : Board) (alpha beta acc : Score),
      boardAgree b1 b2 →
      (minLoop f1 stone b1 alpha beta moves acc).1
        = (minLoop f2 stone b2 alpha beta moves acc).1
  | [], _, _, _, _, _, _ => rfl
  | m :: rest, b1, b2, alpha, beta, acc, hag => by
    have hev := hf (setCell b1 m.1 m.2 stone) (setCell b2 m.1 m.2 stone) alpha beta
      (hag.set m.1 m.2 stone)
    simp only [minLoop, hsnd1, hsnd2, setCell_setCell, hev]
    split
    · rfl
    · exact minLoop_fst_congr f1 f2 stone hsnd1 hsnd2 hf rest _ _ _ _ _
        (hag.set m.1 m.2 0)

theorem minimax_fst_congr :
    ∀ (depth : ℕ) {b1 b2 : Board} (isMaximizing : Bool) (player : ℤ)
      (alpha beta : Score), boardAgree b1 b2 →
      (minimax depth b1 isMaximizing player alpha beta).1
        = (minimax depth b2 isMaximizing player alpha beta).1
  | 0, b1, b2, _, player, _, _, hag => by
    simp only [minimax, Score.ofInt, evaluateBoard_congr hag]
  | depth + 1, b1, b2, isMaximizing, player, alpha, beta, hag => by
    simp only [minimax, isGameOver_congr hag, getCandidateMoves_congr hag]
    split
    · simp only [Score.ofInt, evaluateBoard_congr hag]
    · split
      · exact maxLoop_fst_congr _ _ player
          (fun b a bt => minimax_snd depth b false player a bt)
          (fun b a bt => minimax_snd depth b false player a bt)
          (fun b1' b2' a bt hag' => minimax_fst_congr depth false player a bt hag')
          (getCandidateMoves b2) b1 b2 alpha beta ⊥ hag
      · exact minLoop_fst_congr _ _ (3 - player)
          (fun b a bt => minimax_snd depth b true player a bt)
          (fun b a bt => minimax_snd depth b true player a bt)
          (fun b1' b2' a bt hag' => minimax_fst_congr depth true player a bt hag')
          (getCandidateMoves b2) b1 b2 alpha beta ⊤ hag

theorem findWinLoop_fst_congr (player : ℤ) :
    ∀ (l : List (ℤ × ℤ)) (b1 b2 : Board), boardAgree b1 b2 →
      (∀ m ∈ l, (0 ≤ m.1 ∧ m.1 < 15 ∧ 0 ≤ m.2 ∧ m.2 < 15)) →
      (findWinLoop player b1 l).1 = (findWinLoop player b2 l).1
  | [], _, _, _, _ => rfl
  | m :: rest, b1, b2, hag, hl => by
    obtain ⟨h1, h2, h3, h4⟩ := hl m (List.mem_cons_self m rest)
    have hrest := fun m' hm' => hl m' (List.mem_cons_of_mem m hm')
    have hread : b1 m.1 m.2 = b2 m.1 m.2 := hag m.1 m.2 h1 h2 h3 h4
    simp only [findWinLoop, hread,
      checkFiveInRow_congr (hag.set m.1 m.2 player) m.1 m.2 player]
    by_cases hempty : b2 m.1 m.2 = 0
    · rw [if_pos hempty, if_pos hempty]
      split
      · rfl
      · simp only [setCell_setCell]
        exact findWinLoop_fst_congr player rest _ _ (hag.set m.1 m.2 0) hrest
    · rw [if_neg hempty, if_neg hempty]
      exact findWinLoop_fst_congr player rest _ _ hag hrest

theorem findWinningMove_fst_congr {b1 b2 : Board} (hag : boardAgree b1 b2)
    (player : ℤ) : (findWinningMove b1 player).1 = (findWinningMove b2 player).1 :=
  findWinLoop_fst_congr player allPositions b1 b2 hag
    (fun _ hm => mem_allPositions.1 hm)

theorem evaluateMoveThreat_fst_congr {b1 b2 : Board} (hag : boardAgree b1 b2)
    (move : ℤ × ℤ) (player : ℤ) :
    (evaluateMoveThreat b1 move player).1 = (evaluateMoveThreat b2 move player).1 := by
  simp only [evaluateMoveThreat]
  apply list_foldl_congr
  intro d _ s
  rw [countConsecutive_congr (hag.set move.1 move.2 player)]

theorem scoreMovesLoop_fst_congr (player : ℤ) :
    ∀ (l : List (ℤ × ℤ)) (b1 b2 : Board), boardAgree b1 b2 →
      (scoreMovesLoop player b1 l).1 = (scoreMovesLoop player b2 l).1
  | [], _, _, _ => rfl
  | m :: rest, b1, b2, hag => by
    have h1 := evaluateMoveThreat_fst_congr hag m player
    have h2 : (evaluateMoveThreat b1 m player).2 = setCell b1 m.1 m.2 0 := by
      simp only [evaluateMoveThreat, setCell_setCell]
    have h3 : (evaluateMoveThreat b2 m player).2 = setCell b2 m.1 m.2 0 := by
      simp only [evaluateMoveThreat, setCell_setCell]
    simp only [scoreMovesLoop, h1, h2, h3]
    rw [scoreMovesLoop_fst_congr player rest _ _ (hag.set m.1 m.2 0)]

theorem getPriorityMoves_fst_congr {b1 b2 : Board} (hag : boardAgree b1 b2)
    (player : ℤ) :
    (getPriorityMoves b1 player).1 = (getPriorityMoves b2 player).1 := by
  simp only [getPriorityMoves, getCandidateMoves_congr hag,
    scoreMovesLoop_fst_congr player (getCandidateMoves b2) b1 b2 hag]

theorem enhancedRootLoop_fst_congr (player : ℤ) :
    ∀ (moves : List (ℤ × ℤ)) (b1 b2 : Board) (bestScore : EScore)
      (best : Option (ℤ × ℤ)), boardAgree b1 b2 →
      (enhancedRootLoop player b1 moves bestScore best).1
        = (enhancedRootLoop player b2 moves bestScore best).1
  | [], _, _, _, _, _ => rfl
  | m :: rest, b1, b2, bestScore, best, hag => by
    have hev := minimax_fst_congr 6 false player ⊥ ⊤ (hag.set m.1 m.2 player)
    simp only [enhancedRootLoop, minimax_snd, setCell_setCell, hev]
    split
    · exact enhancedRootLoop_fst_congr player rest _ _ _ _ (hag.set m.1 m.2 0)
    · exact enhancedRootLoop_fst_congr player rest _ _ _ _ (hag.set m.1 m.2 0)

theorem rootLoop_fst_congr (f1 f2 : Board → Score × Board) (player : ℤ)
    (hsnd1 : ∀ b, (f1 b).2 = b) (hsnd2 : ∀ b, (f2 b).2 = b)
    (hf : ∀ b1 b2, boardAgree b1 b2 → (f1 b1).1 = (f2 b2).1) :
    ∀ (moves : List (ℤ × ℤ)) (b1 b2 : Board) (bestScore : Score)
      (best : Option (ℤ × ℤ)), boardAgree b1 b2 →
      (rootLoop f1 player b1 moves bestScore best).1
        = (rootLoop f2 player b2 moves bestScore best).1
  | [], _, _, _, _, _ => rfl
  | m :: rest, b1, b2, bestScore, best, hag => by
    have hev := hf (setCell b1 m.1 m.2 player) (setCell b2 m.1 m.2 player)
      (hag.set m.1 m.2 player)
    simp only [rootLoop, hsnd1, hsnd2, setCell_setCell, hev]
    split
    · exact rootLoop_fst_congr f1 f2 player hsnd1 hsnd2 hf rest _ _ _ _
        (hag.set m.1 m.2 0)
    · exact rootLoop_fst_congr f1 f2 player hsnd1 hsnd2 hf rest _ _ _ _
        (hag.set m.1 m.2 0)

/-- C10: During a `getMove` call of any tier every grid read and write is
at in-bounds indices: two grids that agree on `[0, 15) × [0, 15)` (but may
differ arbitrarily outside) produce the identical move, so in an embedding
with option-returning indexing no reachable access could leave the board. -/
theorem getMove_reads_in_bounds (b1 b2 : Board) (hag : boardAgree b1 b2)
    (difficulty : AIDifficulty) (player : ℤ) (coin : Bool) (idx : ℕ) :
    (getMove difficulty b1 player coin idx).1
      = (getMove difficulty b2 player coin idx).1 := by
  cases difficulty with
  | beginner =>
    show (beginnerMove b1 player coin idx).1 = (beginnerMove b2 player coin idx).1
    have hdef : (findDefensiveMove b1 player).1 = (findDefensiveMove b2 player).1 :=
      findWinLoop_fst_congr (3 - player) allPositions b1 b2 hag
        (fun _ hm => mem_allPositions.1 hm)
    simp only [beginnerMove, getEmptyPositions_congr hag, hdef]
    split
    · split
      · rfl
      · rfl
    · rfl
  | intermediate =>
    show (intermediateMove b1 player).1 = (intermediateMove b2 player).1
    simp only [intermediateMove, getCandidateMoves_congr hag]
    rw [rootLoop_fst_congr _ _ player
      (fun b => minimax_snd 2 b false player ⊥ ⊤)
      (fun b => minimax_snd 2 b false player ⊥ ⊤)
      (fun b1' b2' hag' => minimax_fst_congr 2 false player ⊥ ⊤ hag')
      (getCandidateMoves b2) b1 b2 ⊥ none hag]
  | advance =>
    show (advanceMove b1 player).1 = (advanceMove b2 player).1
    simp only [advanceMove, getCandidateMoves_congr hag]
    rw [rootLoop_fst_congr _ _ player
      (fun b => minimax_snd 4 b false player ⊥ ⊤)
      (fun b => minimax_snd 4 b false player ⊥ ⊤)
      (fun b1' b2' hag' => minimax_fst_congr 4 false player ⊥ ⊤ hag')
      (getCandidateMoves b2) b1 b2 ⊥ none hag]
  | expert =>
    show (expertMove b1 player).1 = (expertMove b2 player).1
    have hw1 := findWinningMove_fst_congr hag player
    have hw2 := findWinningMove_fst_congr hag (3 - player)
    have henh : (enhancedMinimaxMove b1 player).1 = (enhancedMinimaxMove b2 player).1 := by
      simp only [enhancedMinimaxMove, getPriorityMoves_snd,
        getPriorityMoves_fst_congr hag player]
      rw [enhancedRootLoop_fst_congr player ((getPriorityMoves b2 player).1)
        b1 b2 (⊥, 0) none hag]
    simp only [expertMove, findWinningMove_snd, hw1, hw2]
    cases hv : (findWinningMove b2 player).1 with
    | some m => rfl
    | none =>
      cases hv2 : (findWinningMove b2 (3 - player)).1 with
      | some m => rfl
      | none => exact henh

/-! ### Concrete boards used by the witnesses -/

/-- Four black stones at `(0,0)..(0,3)`, the rest empty: black wins at `(0,4)`. -/
def boardFourBlack : Board := fun r c => if r = 0 ∧ 0 ≤ c ∧ c < 4 then 1 else 0

/-- An entirely empty board. -/
def boardEmpty : Board := fun _ _ => 0

/-- An entirely full board (no empty cell anywhere). -/
def boardFull : Board := fun _ _ => 1

/-- A board equal to `boardEmpty` on the 15x15 playing area but holding junk
outside it. -/
def boardJunkOutside : Board := fun r _ => if 15 ≤ r then 7 else 0

/-- A full board tiled so that no five-in-a-row exists and the single empty
cell `(7,7)` completes none: no immediate win for either player. -/
def boardNoWin : Board := fun r c =>
  if r = 7 ∧ c = 7 then 0 else if (c + 2 * (r % 2)) % 4 < 2 then 1 else 2

/-- A full board except for the cell `(0,4)`, with four white stones at
`(0,0)..(0,3)`: white (player 2) wins at `(0,4)`, black (player 1) has no
winning placement. -/
def boardBlock : Board := fun r c =>
  if r = 0 ∧ 0 ≤ c ∧ c < 4 then 2
  else if r = 0 ∧ c = 4 then 0
  else if (c + 2 * (r % 2)) % 4 < 2 then 1 else 2

/-! ### Witnesses -/

set_option maxRecDepth 1000000 in
set_option maxHeartbeats 1000000 in
/-- Witness for `expertMove_shortcuts` at concrete boards: a black win at
`(0,4)` is played; with no black win and a white win at `(0,4)` the block is
played; with no immediate win on either side Expert falls through to the
enhanced search. -/
theorem expertMove_shortcuts_witness :
    (∃ m : ℤ × ℤ, (getMove AIDifficulty.expert boardFourBlack 1 false 0).1 = some m ∧
      winCell boardFourBlack 1 m ∧
      ∀ m' : ℤ × ℤ, winCell boardFourBlack 1 m' → m' = m ∨ rowMajorLt m m') ∧
    (∃ m : ℤ × ℤ, (getMove AIDifficulty.expert boardBlock 1 false 0).1 = some m ∧
      winCell boardBlock 2 m ∧
      ∀ m' : ℤ × ℤ, winCell boardBlock 2 m' → m' = m ∨ rowMajorLt m m') ∧
    getMove AIDifficulty.expert boardNoWin 1 false 0
      = enhancedMinimaxMove boardNoWin 1 :=
  ⟨(expertMove_shortcuts boardFourBlack 1 false 0).1 ⟨(0, 4), by decide⟩,
   (expertMove_shortcuts boardBlock 1 false 0).2.1
     ((findWinningMove_none_iff boardBlock 1).1 (by decide)) ⟨(0, 4), by decide⟩,
   (expertMove_shortcuts boardNoWin 1 false 0).2.2
     ((findWinningMove_none_iff boardNoWin 1).1 (by decide))
     ((findWinningMove_none_iff boardNoWin 2).1 (by decide))⟩

set_option maxRecDepth 1000000 in
set_option maxHeartbeats 1000000 in
/-- Witness for `findWinningMove_spec`: on the four-black-stones board the
scan returns `(0,4)`, which is the row-major-first winning cell. -/
theorem findWinningMove_spec_witness :
    winCell boardFourBlack 1 (0, 4) ∧
      ∀ m' : ℤ × ℤ, winCell boardFourBlack 1 m' →
        m' = ((0 : ℤ), (4 : ℤ)) ∨ rowMajorLt (0, 4) m' :=
  (findWinningMove_spec boardFourBlack 1).2.2.2 (0, 4) (by decide)

set_option maxRecDepth 1000000 in
/-- Witness for `getMove_exhausted_board`: the Intermediate tier on the full
board returns the fault value. -/
theorem getMove_exhausted_board_witness :
    (getMove AIDifficulty.intermediate boardFull 1 false 0).1 = none :=
  getMove_exhausted_board AIDifficulty.intermediate boardFull 1 false 0 (by decide)

set_option maxRecDepth 1000000 in
/-- Witness for `getMove_returns_empty_cell`: the Beginner tier on the empty
board returns an empty cell. -/
theorem getMove_returns_empty_cell_witness :
    ∃ m : ℤ × ℤ, (getMove AIDifficulty.beginner boardEmpty 1 false 7).1 = some m ∧
      m ∈ getEmptyPositions boardEmpty :=
  getMove_returns_empty_cell AIDifficulty.beginner boardEmpty 1 false 7 (by decide)

set_option maxRecDepth 1000000 in
/-- Witness for `candidate_moves_spec`: the four-black-stones board has empty
cells, so the candidate set is non-empty. -/
theorem candidate_moves_spec_witness : getCandidateMoves boardFourBlack ≠ [] :=
  (candidate_moves_spec boardFourBlack).1 (by decide)

/-- Witness for `getMove_deterministic`: the Intermediate tier ignores the
randomness arguments. -/
theorem getMove_deterministic_witness :
    getMove AIDifficulty.intermediate boardEmpty 1 true 3
      = getMove AIDifficulty.intermediate boardEmpty 1 false 9 :=
  getMove_deterministic AIDifficulty.intermediate (by decide) boardEmpty 1 true 3
    false 9

/-- Witness for `countConsecutive_anchor_independent` at the direction
`(0, 1)`: the horizontal count through `(0, 0)` on the empty board is at least
1 and unchanged when the anchor is overwritten with a white stone. -/
theorem countConsecutive_anchor_independent_witness :
    1 ≤ countConsecutive boardEmpty 0 0 0 1 1 ∧
      countConsecutive (setCell boardEmpty 0 0 2) 0 0 0 1 1
        = countConsecutive boardEmpty 0 0 0 1 1 :=
  (countConsecutive_anchor_independent boardEmpty 0 0 1 2).1 (0, 1) (by decide)

/-- Witness for `getMove_reads_in_bounds`: junk outside the playing area does
not change the Beginner move. -/
theorem getMove_reads_in_bounds_witness :
    (getMove AIDifficulty.beginner boardEmpty 1 false 0).1
      = (getMove AIDifficulty.beginner boardJunkOutside 1 false 0).1 :=
  getMove_reads_in_bounds boardEmpty boardJunkOutside
    (by
      intro r c h1 h2 h3 h4
      unfold boardEmpty boardJunkOutside
      rw [if_neg (by omega)])
    AIDifficulty.beginner 1 false 0

end Gomoku
